import Mathlib

/-!
Shallow embedding of the `Net` aggregate of the `just-dev` task domain
(`src/task/src/domain/net.rs` together with the identifier and entity
primitives of `src/shared-kernel/src/lib.rs`), and proofs about its
commands and invariants.

Identifiers (`Id<Task>`, `Id<Status>`, `Id<Net>`) are opaque values compared
by equality; they are embedded as natural numbers.  `HashMap<Id<Task>,
Id<Status>>` is embedded as an association list whose operations mirror the
`HashMap` operations used by the source.  `DiGraphMap<Id<Task>, RelationType>`
is embedded as a node list plus an edge list keyed by the ordered pair of
endpoints; `has_path_connecting` and `toposort` from `petgraph` are embedded
by executable functions whose characterizing properties are proved below.
Commands mutate an `Entity<Net>` and return `Result<(), TaskDomainError>`;
this is embedded as functions `ENet → ENet × Option TaskDomainError`, where
the returned state keeps any mutations made before an error, exactly as the
Rust `&mut self` methods do.
-/

abbrev TaskId := Nat
abbrev StatusId := Nat
abbrev NetId := Nat

/-- `RelationType` from net.rs: a composition or requirement relation. -/
inductive RelationType
  | Compose
  | Require
  deriving DecidableEq, Repr

/-- An edge of the relation graph: (from, to, relation type). -/
abbrev Edge := TaskId × TaskId × RelationType

/-- `DiGraphMap<Id<Task>, RelationType>`: nodes in insertion order, edges
keyed by the ordered pair of endpoints. -/
structure Graph where
  nodes : List TaskId
  edges : List Edge
  deriving DecidableEq, Repr

/-- The task–status map `HashMap<Id<Task>, Id<Status>>`. -/
abbrev TaskMap := List (TaskId × StatusId)

/-- `HashMap::get`. -/
def mlookup : TaskMap → TaskId → Option StatusId
  | [], _ => none
  | p :: rest, k => if p.1 = k then some p.2 else mlookup rest k

/-- `HashMap::insert` / assignment through `get_mut`: update the entry in
place if the key is present, otherwise append. -/
def minsert (m : TaskMap) (k : TaskId) (v : StatusId) : TaskMap :=
  if (mlookup m k).isSome then
    m.map (fun p => if p.1 = k then (k, v) else p)
  else
    m ++ [(k, v)]

/-- `HashMap::remove`. -/
def mremove (m : TaskMap) (k : TaskId) : TaskMap :=
  m.filter (fun p => decide (p.1 ≠ k))

/-- `iter_mut` over all entries, rewriting each value. -/
def mapValues (m : TaskMap) (f : StatusId → StatusId) : TaskMap :=
  m.map (fun p => (p.1, f p.2))

/-- `DiGraphMap::add_node`: a no-op if the node is present. -/
def addNode (g : Graph) (n : TaskId) : Graph :=
  if n ∈ g.nodes then g else { g with nodes := g.nodes ++ [n] }

/-- `DiGraphMap::add_edge`: inserts both endpoints as nodes; replaces the
relation type in place if the directed edge already exists. -/
def addEdge (g : Graph) (a b : TaskId) (ty : RelationType) : Graph :=
  let g1 := addNode (addNode g a) b
  if g1.edges.any (fun e => decide (e.1 = a ∧ e.2.1 = b)) then
    { g1 with edges := g1.edges.map (fun e => if e.1 = a ∧ e.2.1 = b then (a, b, ty) else e) }
  else
    { g1 with edges := g1.edges ++ [(a, b, ty)] }

/-- `DiGraphMap::remove_node`: removes the node and all incident edges. -/
def removeNode (g : Graph) (n : TaskId) : Graph :=
  { nodes := g.nodes.filter (fun m => decide (m ≠ n)),
    edges := g.edges.filter (fun e => decide (e.1 ≠ n ∧ e.2.1 ≠ n)) }

/-- `DiGraphMap::remove_edge`. -/
def removeEdge (g : Graph) (a b : TaskId) : Graph :=
  { g with edges := g.edges.filter (fun e => decide (¬(e.1 = a ∧ e.2.1 = b))) }

/-- `edges_directed(t, Incoming)`: the edges whose target is `t`, in
insertion order. -/
def inEdges (g : Graph) (t : TaskId) : List Edge :=
  g.edges.filter (fun e => decide (e.2.1 = t))

/-- One step of reachability saturation: add the targets of all edges whose
source is already in the set. -/
def stepReach (g : Graph) (s : List TaskId) : List TaskId :=
  (s ++ (g.edges.filter (fun e => decide (e.1 ∈ s))).map (fun e => e.2.1)).dedup

/-- `n`-fold saturation of the set reachable from `a`. -/
def reachN (g : Graph) (a : TaskId) : Nat → List TaskId
  | 0 => [a]
  | n + 1 => stepReach g (reachN g a n)

/-- `petgraph::algo::has_path_connecting g a b`: whether `b` is reachable
from `a` (reflexively).  Saturation over more steps than there are distinct
reachable vertices computes the full reachable set. -/
def hasPathConnecting (g : Graph) (a b : TaskId) : Bool :=
  decide (b ∈ reachN g a (g.nodes.length + g.edges.length + 1))

/-- The edge relation of the graph, forgetting the relation type. -/
def edgeRel (g : Graph) (a b : TaskId) : Prop :=
  ∃ ty, (a, b, ty) ∈ g.edges

/-- Reflexive–transitive reachability along directed edges. -/
def Reach (g : Graph) : TaskId → TaskId → Prop :=
  Relation.ReflTransGen (edgeRel g)

/-- The graph has no directed cycle: no edge closes a path back to its
source. -/
def noCycle (g : Graph) : Prop :=
  ∀ a b, edgeRel g a b → ¬ Reach g b a

/-- `n` has no incoming edge from a source still in `rem`. -/
def noInEdgeFromB (edges : List Edge) (rem : List TaskId) (n : TaskId) : Bool :=
  edges.all (fun e => !(decide (e.2.1 = n) && decide (e.1 ∈ rem)))

/-- Pick the first remaining node with no incoming edge from the remaining
set (Kahn's algorithm). -/
def pickSource (edges : List Edge) (rem : List TaskId) : Option TaskId :=
  rem.find? (noInEdgeFromB edges rem)

/-- Kahn's algorithm with fuel; fuel `rem.length` always suffices. -/
def topoAuxF (edges : List Edge) : Nat → List TaskId → Option (List TaskId)
  | 0, rem => if rem.isEmpty then some [] else none
  | fuel + 1, rem =>
    if rem.isEmpty then some [] else
      match pickSource edges rem with
      | none => none
      | some n => (topoAuxF edges fuel (rem.erase n)).map (fun l => n :: l)

/-- `petgraph::algo::toposort`: a topological order of all nodes, or failure
when the graph has a cycle. -/
def topoSort (g : Graph) : Option (List TaskId) :=
  topoAuxF g.edges g.nodes.length g.nodes

/-- A status entry `Entity<Status>`: identifier and name. -/
abbrev StatusEntry := StatusId × String

/-- `Schema` from net.rs. -/
structure Schema where
  status : List StatusEntry
  default : StatusId
  accepted : StatusId
  deriving DecidableEq, Repr

/-- `Net` from net.rs. -/
structure Net where
  relations : Graph
  schema : Schema
  tasks : TaskMap
  deriving DecidableEq, Repr

/-- `Entity<Net>`: the aggregate root carrying the net's own id. -/
structure ENet where
  id : NetId
  data : Net
  deriving DecidableEq, Repr

/-- `TaskDomainError` from error.rs. -/
inductive TaskDomainError
  | StatusNotFoundInNet (net : NetId) (status : StatusId)
  | TaskNotFoundInNet (net : NetId) (task : TaskId)
  | RelationNotFoundInNet (net : NetId) (tfrom : TaskId) (tto : TaskId)
  | RelationConstraintNotSatisfied (net : NetId) (task : TaskId)
  | TaskAlreadyInNet (task : TaskId) (net : NetId)
  | StatusNotRemovable (net : NetId) (status : StatusId)
  | CycleNotAllowedInNet (net : NetId)
  deriving DecidableEq, Repr

/-- The loop body of `is_controlled_task_accepted`: walk the incoming edges,
returning `Some(false)` at the first source whose status is not the accepted
status, an error at the first source missing from the map, and otherwise
`Some(true)` or `None` according to whether a `Compose` edge was seen. -/
def ictaGo (net : ENet) : List Edge → Bool → Except TaskDomainError (Option Bool)
  | [], haveSubtasks => .ok (if haveSubtasks then some true else none)
  | e :: rest, haveSubtasks =>
    match mlookup net.data.tasks e.1 with
    | none => .error (.TaskNotFoundInNet net.id e.1)
    | some st =>
      if st ≠ net.data.schema.accepted then .ok (some false)
      else ictaGo net rest (haveSubtasks || decide (e.2.2 = RelationType.Compose))

/-- `is_controlled_task_accepted` from net.rs. -/
def is_controlled_task_accepted (net : ENet) (task : TaskId) :
    Except TaskDomainError (Option Bool) :=
  ictaGo net (inEdges net.data.relations task) false

/-- Overwrite the stored status of a task (assignment through `get_mut`). -/
def updStatus (net : ENet) (t : TaskId) (s : StatusId) : ENet :=
  { net with data := { net.data with tasks := minsert net.data.tasks t s } }

/-- The loop of `propagate`: for each task of the chosen topological window,
recompute whether it is controlled-accepted and rewrite its stored status
when it disagrees.  Stops at the first error, keeping mutations made so
far. -/
def propagateLoop : ENet → List TaskId → ENet × Option TaskDomainError
  | net, [] => (net, none)
  | net, task :: rest =>
    match is_controlled_task_accepted net task with
    | .error e => (net, some e)
    | .ok none => propagateLoop net rest
    | .ok (some acc) =>
      match mlookup net.data.tasks task with
      | none => (net, some (.TaskNotFoundInNet net.id task))
      | some stored =>
        if acc = decide (stored = net.data.schema.accepted) then
          propagateLoop net rest
        else
          propagateLoop
            (updStatus net task
              (if acc then net.data.schema.accepted else net.data.schema.default)) rest

/-- `propagate` from net.rs: toposort the graph, apply the window transform,
and walk the window. -/
def propagate (net : ENet) (transform : List TaskId → List TaskId) :
    ENet × Option TaskDomainError :=
  match topoSort net.data.relations with
  | none => (net, some (.CycleNotAllowedInNet net.id))
  | some tasks => propagateLoop net (transform tasks)

/-- `propagate_all` from net.rs. -/
def propagate_all (net : ENet) : ENet × Option TaskDomainError :=
  propagate net id

/-- `propagate_from` from net.rs: the window strictly after `task`. -/
def propagate_from (net : ENet) (task : TaskId) : ENet × Option TaskDomainError :=
  propagate net (fun l => (l.dropWhile (fun x => decide (x ≠ task))).drop 1)

/-- `propagate_at` from net.rs: the window from `task` inclusive. -/
def propagate_at (net : ENet) (task : TaskId) : ENet × Option TaskDomainError :=
  propagate net (fun l => l.dropWhile (fun x => decide (x ≠ task)))

/-- `new_status` from net.rs; the freshly minted `Id::new()` is passed in as
`sid`. -/
def new_status (net : ENet) (sid : StatusId) (sname : String) :
    ENet × Option TaskDomainError :=
  ({ net with
      data := { net.data with
        schema := { net.data.schema with
          status := net.data.schema.status ++ [(sid, sname)] } } }, none)

/-- `remove_status` from net.rs. -/
def remove_status (net : ENet) (sid : StatusId) : ENet × Option TaskDomainError :=
  if ¬ net.data.schema.status.any (fun p => decide (p.1 = sid)) then
    (net, some (.StatusNotFoundInNet net.id sid))
  else if sid = net.data.schema.default ∨ sid = net.data.schema.accepted then
    (net, some (.StatusNotRemovable net.id sid))
  else
    ({ net with
        data := { net.data with
          tasks := mapValues net.data.tasks
            (fun v => if v = sid then net.data.schema.default else v),
          schema := { net.data.schema with
            status := net.data.schema.status.filter (fun p => decide (p.1 ≠ sid)) } } },
      none)

/-- Rename the first status entry carrying the given id (`iter_mut().find`). -/
def renameFirst : List StatusEntry → StatusId → String → List StatusEntry
  | [], _, _ => []
  | p :: rest, sid, nm =>
    if p.1 = sid then (p.1, nm) :: rest else p :: renameFirst rest sid nm

/-- `change_status_name` from net.rs. -/
def change_status_name (net : ENet) (sid : StatusId) (nm : String) :
    ENet × Option TaskDomainError :=
  if net.data.schema.status.any (fun p => decide (p.1 = sid)) then
    ({ net with
        data := { net.data with
          schema := { net.data.schema with
            status := renameFirst net.data.schema.status sid nm } } }, none)
  else
    (net, some (.StatusNotFoundInNet net.id sid))

/-- `change_default` from net.rs. -/
def change_default (net : ENet) (nd : StatusId) : ENet × Option TaskDomainError :=
  if ¬ net.data.schema.status.any (fun p => decide (p.1 = nd)) then
    (net, some (.StatusNotFoundInNet net.id nd))
  else
    ({ net with
        data := { net.data with
          tasks := mapValues net.data.tasks
            (fun v => if v = net.data.schema.default then nd else v),
          schema := { net.data.schema with default := nd } } }, none)

/-- `add_task` from net.rs. -/
def add_task (net : ENet) (tid : TaskId) : ENet × Option TaskDomainError :=
  if (mlookup net.data.tasks tid).isSome then
    (net, some (.TaskAlreadyInNet tid net.id))
  else
    ({ net with
        data := { net.data with
          tasks := net.data.tasks ++ [(tid, net.data.schema.default)],
          relations := addNode net.data.relations tid } }, none)

/-- `change_task_status` from net.rs. -/
def change_task_status (net : ENet) (tid : TaskId) (sid : StatusId) :
    ENet × Option TaskDomainError :=
  match is_controlled_task_accepted net tid with
  | .error e => (net, some e)
  | .ok (some _) => (net, some (.RelationConstraintNotSatisfied net.id tid))
  | .ok none =>
    match mlookup net.data.tasks tid with
    | none => (net, some (.TaskNotFoundInNet net.id tid))
    | some _ => propagate_from (updStatus net tid sid) tid

/-- `new_relation` from net.rs. -/
def new_relation (net : ENet) (tfrom tto : TaskId) (ty : RelationType) :
    ENet × Option TaskDomainError :=
  if hasPathConnecting net.data.relations tto tfrom then
    (net, some (.CycleNotAllowedInNet net.id))
  else
    propagate_at
      { net with
        data := { net.data with relations := addEdge net.data.relations tfrom tto ty } }
      tto

/-- `remove_task` from net.rs. -/
def remove_task (net : ENet) (tid : TaskId) : ENet × Option TaskDomainError :=
  propagate_all
    { net with
      data := { net.data with
        tasks := mremove net.data.tasks tid,
        relations := removeNode net.data.relations tid } }

/-- `remove_relation` from net.rs. -/
def remove_relation (net : ENet) (tfrom tto : TaskId) : ENet × Option TaskDomainError :=
  propagate_at
    { net with
      data := { net.data with relations := removeEdge net.data.relations tfrom tto } }
    tto

/-- The command surface of the `NetAggregateRoot` trait. -/
inductive Cmd
  | new_status (sid : StatusId) (sname : String)
  | remove_status (sid : StatusId)
  | change_status_name (sid : StatusId) (sname : String)
  | change_default (sid : StatusId)
  | add_task (tid : TaskId)
  | remove_task (tid : TaskId)
  | new_relation (tfrom tto : TaskId) (ty : RelationType)
  | remove_relation (tfrom tto : TaskId)
  | change_task_status (tid : TaskId) (sid : StatusId)
  deriving DecidableEq, Repr

/-- Dispatch a command to the corresponding aggregate method. -/
def applyCmd : Cmd → ENet → ENet × Option TaskDomainError
  | .new_status sid nm, net => new_status net sid nm
  | .remove_status sid, net => remove_status net sid
  | .change_status_name sid nm, net => change_status_name net sid nm
  | .change_default sid, net => change_default net sid
  | .add_task tid, net => add_task net tid
  | .remove_task tid, net => remove_task net tid
  | .new_relation a b ty, net => new_relation net a b ty
  | .remove_relation a b, net => remove_relation net a b
  | .change_task_status tid sid, net => change_task_status net tid sid

/-- Modelled from the spec: `Net::create` (spec §6) is not under `src/`; it
seeds the schema with the two mandatory statuses (freshly minted, hence
distinct, ids for `default` and `accepted`), an empty task–status map and an
empty relation graph.  `Bootstrap` characterizes exactly the nets produced
by `Net::create`. -/
def Bootstrap (net : ENet) : Prop :=
  net.data.relations = ⟨[], []⟩ ∧
  net.data.tasks = [] ∧
  net.data.schema.default ≠ net.data.schema.accepted ∧
  (∃ p ∈ net.data.schema.status, p.1 = net.data.schema.default) ∧
  (∃ p ∈ net.data.schema.status, p.1 = net.data.schema.accepted)

/-- Net states reachable from a freshly created net by successful commands. -/
inductive Reachable : ENet → Prop
  | boot (net : ENet) : Bootstrap net → Reachable net
  | step (net net' : ENet) (c : Cmd) :
      Reachable net → applyCmd c net = (net', none) → Reachable net'

/-- Net states reachable by successful commands none of which moved the
default status onto the accepted status. -/
inductive ReachableND : ENet → Prop
  | boot (net : ENet) : Bootstrap net → ReachableND net
  | step (net net' : ENet) (c : Cmd) :
      ReachableND net → applyCmd c net = (net', none) →
      (∀ sid, c = Cmd.change_default sid → sid ≠ net.data.schema.accepted) →
      ReachableND net'

/-- Some incoming edge of `t` has a source whose stored status is not the
accepted status (or no stored status at all). -/
def blockedIn (net : ENet) (t : TaskId) : Prop :=
  ∃ e ∈ inEdges net.data.relations t,
    mlookup net.data.tasks e.1 ≠ some net.data.schema.accepted

/-- Every incoming edge of `t` has a source stored with the accepted status. -/
def allParentsAccepted (net : ENet) (t : TaskId) : Prop :=
  ∀ e ∈ inEdges net.data.relations t,
    mlookup net.data.tasks e.1 = some net.data.schema.accepted

/-- `t` has at least one incoming `Compose` edge. -/
def hasComposeIn (net : ENet) (t : TaskId) : Prop :=
  ∃ e ∈ inEdges net.data.relations t, e.2.2 = RelationType.Compose

/-- `sid` is the id of a status entry of the schema. -/
def schemaHas (sch : Schema) (sid : StatusId) : Prop :=
  ∃ p ∈ sch.status, p.1 = sid

/-! ### Basic lemmas about the map and the propagation loop -/

theorem mlookup_map_replace_ne (m : TaskMap) (k k' : TaskId) (v : StatusId)
    (h : k' ≠ k) :
    mlookup (m.map (fun p => if p.1 = k then (k, v) else p)) k' = mlookup m k' := by
  induction m with
  | nil => rfl
  | cons p rest ih =>
    by_cases hp : p.1 = k
    · simp only [List.map_cons, if_pos hp, mlookup]
      rw [if_neg (Ne.symm h), if_neg (fun hh => h (hh.symm.trans hp)), ih]
    · simp only [List.map_cons, if_neg hp, mlookup]
      by_cases hp' : p.1 = k'
      · rw [if_pos hp', if_pos hp']
      · rw [if_neg hp', if_neg hp', ih]

theorem mlookup_append_single_ne (m : TaskMap) (k k' : TaskId) (v : StatusId)
    (h : k' ≠ k) : mlookup (m ++ [(k, v)]) k' = mlookup m k' := by
  induction m with
  | nil =>
    show (if k = k' then some v else none) = none
    rw [if_neg (Ne.symm h)]
  | cons p rest ih =>
    simp only [List.cons_append, mlookup]
    split
    · rfl
    · exact ih

theorem mlookup_minsert_ne (m : TaskMap) (k k' : TaskId) (v : StatusId)
    (h : k' ≠ k) : mlookup (minsert m k v) k' = mlookup m k' := by
  unfold minsert
  split
  · exact mlookup_map_replace_ne m k k' v h
  · exact mlookup_append_single_ne m k k' v h

theorem updStatus_relations (net : ENet) (t : TaskId) (s : StatusId) :
    (updStatus net t s).data.relations = net.data.relations := rfl

theorem propagateLoop_frame (net : ENet) (l : List TaskId) :
    (propagateLoop net l).1.data.relations = net.data.relations ∧
    (propagateLoop net l).1.data.schema = net.data.schema ∧
    (propagateLoop net l).1.id = net.id := by
  induction l generalizing net with
  | nil => exact ⟨rfl, rfl, rfl⟩
  | cons task rest ih =>
    unfold propagateLoop
    cases h : is_controlled_task_accepted net task with
    | error e => exact ⟨rfl, rfl, rfl⟩
    | ok o =>
      cases o with
      | none => exact ih net
      | some acc =>
        cases hm : mlookup net.data.tasks task with
        | none => exact ⟨rfl, rfl, rfl⟩
        | some stored =>
          dsimp only
          split
          · exact ih net
          · exact ih _

theorem icta_of_no_in (net : ENet) (T : TaskId)
    (h : inEdges net.data.relations T = []) :
    is_controlled_task_accepted net T = .ok none := by
  unfold is_controlled_task_accepted
  rw [h]
  rfl

theorem propagateLoop_lookup_of_no_in (net : ENet) (l : List TaskId) (T : TaskId)
    (h : inEdges net.data.relations T = []) :
    mlookup (propagateLoop net l).1.data.tasks T = mlookup net.data.tasks T := by
  induction l generalizing net with
  | nil => rfl
  | cons task rest ih =>
    unfold propagateLoop
    cases hc : is_controlled_task_accepted net task with
    | error e => rfl
    | ok o =>
      cases o with
      | none => exact ih net h
      | some acc =>
        have hne : T ≠ task := by
          intro heq
          rw [heq] at h
          rw [icta_of_no_in net task h] at hc
          exact Option.noConfusion (Except.ok.inj hc)
        cases hm : mlookup net.data.tasks task with
        | none => rfl
        | some stored =>
          dsimp only
          split
          · exact ih net h
          · rw [ih (updStatus net task _) h]
            exact mlookup_minsert_ne _ _ _ _ hne

/-! ### Concrete nets for the scenario claims -/

/-- A freshly created net (`Net::create`): default status `0` named d,
accepted status `1` named a, no tasks, no relations. -/
def bootNet : ENet :=
  { id := 0,
    data := { relations := ⟨[], []⟩,
              schema := { status := [(0, "d"), (1, "a")], default := 0, accepted := 1 },
              tasks := [] } }

/-- After `add_task 10`. -/
def c8s1 : ENet := (add_task bootNet 10).1

/-- After `add_task 10; add_task 11`. -/
def c8s2 : ENet := (add_task c8s1 11).1

/-- After `add_task 10; add_task 11; new_relation(10, 11, Compose)`. -/
def c8s3 : ENet := (new_relation c8s2 10 11 RelationType.Compose).1

/-- After `add_task 10; add_task 11; new_relation(10, 11, Compose);
change_task_status(10, accepted)`. -/
def c8s4 : ENet := (change_task_status c8s3 10 1).1

/-- After `add_task 10; add_task 11; new_relation(10, 11, Require)`. -/
def s2s3 : ENet := (new_relation c8s2 10 11 RelationType.Require).1

/-- After the S2 prefix and `change_task_status(10, accepted)`. -/
def s2s4 : ENet := (change_task_status s2s3 10 1).1

/-- After the S2 prefix and both status changes. -/
def s2s5 : ENet := (change_task_status s2s4 11 1).1

/-- C9's scenario S5: continue from the C8 end state with
`remove_relation(10, 11)`. -/
def c9s5 : ENet := (remove_relation c8s4 10 11).1

/-- C8: starting from a fresh net, `add_task t1; add_task t2;
new_relation(t1, t2, Compose)` yields `t1 = D, t2 = D`; after
`change_task_status(t1, A)` succeeds, `t1 = A, t2 = A`. -/
theorem c8_compose_chain :
    bootNet.data.schema.default = 0 ∧ bootNet.data.schema.accepted = 1 ∧
    (add_task bootNet 10).2 = none ∧
    (add_task c8s1 11).2 = none ∧
    (new_relation c8s2 10 11 RelationType.Compose).2 = none ∧
    mlookup c8s3.data.tasks 10 = some 0 ∧
    mlookup c8s3.data.tasks 11 = some 0 ∧
    (change_task_status c8s3 10 1).2 = none ∧
    mlookup c8s4.data.tasks 10 = some 1 ∧
    mlookup c8s4.data.tasks 11 = some 1 := by
  decide

/-- C9: propagation never touches the stored status of a task with no
incoming edges, whatever the window; in particular, continuing from the C8
end state, `remove_relation(t1, t2)` succeeds and `t2`, now uncontrolled,
keeps the accepted status. -/
theorem c9_uncontrolled_propagation_frame :
    (∀ (net : ENet) (f : List TaskId → List TaskId) (T : TaskId),
        inEdges net.data.relations T = [] →
        mlookup (propagate net f).1.data.tasks T = mlookup net.data.tasks T) ∧
    (remove_relation c8s4 10 11).2 = none ∧
    inEdges c9s5.data.relations 11 = [] ∧
    mlookup c9s5.data.tasks 11 = some 1 ∧
    c9s5.data.schema.accepted = 1 := by
  refine ⟨?_, by decide, by decide, by decide, by decide⟩
  intro net f T h
  unfold propagate
  cases htopo : topoSort net.data.relations with
  | none => rfl
  | some l => exact propagateLoop_lookup_of_no_in net (f l) T h

/-- Witness for the universally quantified part of C9's theorem. -/
theorem c9_witness :
    inEdges bootNet.data.relations 5 = [] ∧
    mlookup (propagate bootNet id).1.data.tasks 5 = mlookup bootNet.data.tasks 5 :=
  ⟨by decide, c9_uncontrolled_propagation_frame.1 bootNet id 5 (by decide)⟩

theorem mem_reachN_self (g : Graph) (a : TaskId) (n : Nat) : a ∈ reachN g a n := by
  induction n with
  | zero => exact List.mem_singleton.mpr rfl
  | succ n ih =>
    unfold reachN stepReach
    exact List.mem_dedup.mpr (List.mem_append_left _ ih)

/-- C10: a self-loop `new_relation(t, t, ty)` always fails with
`CycleNotAllowedInNet` (a node is reachable from itself even when absent
from the graph) and leaves the net unchanged. -/
theorem c10_self_loop_rejected (net : ENet) (t : TaskId) (ty : RelationType) :
    new_relation net t t ty = (net, some (.CycleNotAllowedInNet net.id)) := by
  unfold new_relation
  rw [if_pos]
  unfold hasPathConnecting
  exact decide_eq_true (mem_reachN_self _ _ _)

/-! ### Counterexamples and error-frame results -/

instance (net : ENet) (t : TaskId) : Decidable (hasComposeIn net t) := by
  unfold hasComposeIn
  infer_instance

instance (net : ENet) (t : TaskId) : Decidable (blockedIn net t) := by
  unfold blockedIn
  infer_instance

instance (net : ENet) (t : TaskId) : Decidable (allParentsAccepted net t) := by
  unfold allParentsAccepted
  infer_instance

instance (sch : Schema) (sid : StatusId) : Decidable (schemaHas sch sid) := by
  unfold schemaHas
  infer_instance

/-- C1 counterexample: in scenario S2 (require edge `10 → 11`, source
accepted), the call `change_task_status(11, accepted)` does **not** fail
with `RelationConstraintNotSatisfied`: it succeeds and stores the accepted
status, although task `11` has an incoming relation edge. -/
theorem c1_counterexample_require_chain :
    (new_relation c8s2 10 11 RelationType.Require).2 = none ∧
    (change_task_status s2s3 10 1).2 = none ∧
    inEdges s2s4.data.relations 11 ≠ [] ∧
    (change_task_status s2s4 11 1).2 = none ∧
    mlookup s2s5.data.tasks 11 = some 1 ∧
    s2s5.data.schema.accepted = 1 ∧ s2s5.data.schema.default = 0 := by
  decide

/-- C2 counterexample: a state reachable by successful commands (the S2
sequence) in which task `11` has an incoming edge and carries the accepted
status although it has no incoming `Compose` edge — refuting the
left-to-right direction of the claimed equivalence. -/
theorem c2_counterexample_accepted_without_compose :
    Reachable s2s5 ∧
    inEdges s2s5.data.relations 11 ≠ [] ∧
    mlookup s2s5.data.tasks 11 = some s2s5.data.schema.accepted ∧
    ¬ hasComposeIn s2s5 11 := by
  refine ⟨?_, by decide, by decide, by decide⟩
  have h0 : Reachable bootNet := Reachable.boot bootNet (by
    refine ⟨rfl, rfl, by decide, ?_, ?_⟩
    · exact ⟨(0, "d"), by decide, rfl⟩
    · exact ⟨(1, "a"), by decide, rfl⟩)
  have h1 : Reachable c8s1 := Reachable.step _ _ (Cmd.add_task 10) h0 (by decide)
  have h2 : Reachable c8s2 := Reachable.step _ _ (Cmd.add_task 11) h1 (by decide)
  have h3 : Reachable s2s3 :=
    Reachable.step _ _ (Cmd.new_relation 10 11 RelationType.Require) h2 (by decide)
  have h4 : Reachable s2s4 :=
    Reachable.step _ _ (Cmd.change_task_status 10 1) h3 (by decide)
  exact Reachable.step _ _ (Cmd.change_task_status 11 1) h4 (by decide)

/-- C3 counterexample: `new_relation` on a fresh net whose endpoints were
never added as tasks inserts the edge, then fails inside propagation with
`TaskNotFoundInNet` — returning an error while the net has changed. -/
theorem c3_counterexample_new_relation_mutates_on_error :
    (new_relation bootNet 10 11 RelationType.Require).2
        = some (.TaskNotFoundInNet 0 10) ∧
    (new_relation bootNet 10 11 RelationType.Require).1 ≠ bootNet ∧
    (new_relation bootNet 10 11 RelationType.Require).1.data.relations.edges
        = [(10, 11, RelationType.Require)] := by
  decide

theorem remove_status_error_frame (net : ENet) (sid : StatusId) (e : TaskDomainError)
    (h : (remove_status net sid).2 = some e) : (remove_status net sid).1 = net := by
  by_cases hA : (net.data.schema.status.any fun p => decide (p.1 = sid)) = true
  · by_cases hB : sid = net.data.schema.default ∨ sid = net.data.schema.accepted
    · unfold remove_status
      rw [if_neg (not_not_intro hA), if_pos hB]
    · unfold remove_status at h
      rw [if_neg (not_not_intro hA), if_neg hB] at h
      exact absurd h (by simp)
  · unfold remove_status
    rw [if_pos hA]

theorem change_status_name_error_frame (net : ENet) (sid : StatusId) (nm : String)
    (e : TaskDomainError) (h : (change_status_name net sid nm).2 = some e) :
    (change_status_name net sid nm).1 = net := by
  by_cases hA : (net.data.schema.status.any fun p => decide (p.1 = sid)) = true
  · unfold change_status_name at h
    rw [if_pos hA] at h
    exact absurd h (by simp)
  · unfold change_status_name
    rw [if_neg hA]

theorem change_default_error_frame (net : ENet) (nd : StatusId)
    (e : TaskDomainError) (h : (change_default net nd).2 = some e) :
    (change_default net nd).1 = net := by
  by_cases hA : (net.data.schema.status.any fun p => decide (p.1 = nd)) = true
  · unfold change_default at h
    rw [if_neg (not_not_intro hA)] at h
    exact absurd h (by simp)
  · unfold change_default
    rw [if_pos hA]

theorem add_task_error_frame (net : ENet) (tid : TaskId)
    (e : TaskDomainError) (h : (add_task net tid).2 = some e) :
    (add_task net tid).1 = net := by
  by_cases hA : (mlookup net.data.tasks tid).isSome = true
  · unfold add_task
    rw [if_pos hA]
  · unfold add_task at h
    rw [if_neg hA] at h
    exact absurd h (by simp)

/-- C3 amended: the commands that validate before mutating — `remove_status`,
`change_status_name`, `change_default`, `add_task` — leave the net exactly
unchanged whenever they return an error, and `new_status` never errors. -/
theorem c3_validating_commands_error_frame :
    (∀ (net : ENet) (sid : StatusId) (e : TaskDomainError),
        (remove_status net sid).2 = some e → (remove_status net sid).1 = net) ∧
    (∀ (net : ENet) (sid : StatusId) (nm : String) (e : TaskDomainError),
        (change_status_name net sid nm).2 = some e →
        (change_status_name net sid nm).1 = net) ∧
    (∀ (net : ENet) (nd : StatusId) (e : TaskDomainError),
        (change_default net nd).2 = some e → (change_default net nd).1 = net) ∧
    (∀ (net : ENet) (tid : TaskId) (e : TaskDomainError),
        (add_task net tid).2 = some e → (add_task net tid).1 = net) ∧
    (∀ (net : ENet) (sid : StatusId) (nm : String), (new_status net sid nm).2 = none) :=
  ⟨remove_status_error_frame, change_status_name_error_frame,
    change_default_error_frame, add_task_error_frame, fun _ _ _ => rfl⟩

/-- Witness for C3's amended theorem: a failing `remove_status` call on the
fresh net returns the error and the untouched net. -/
theorem c3_witness :
    (remove_status bootNet 5).2 = some (.StatusNotFoundInNet 0 5) ∧
    (remove_status bootNet 5).1 = bootNet :=
  ⟨by decide,
    c3_validating_commands_error_frame.1 bootNet 5
      (.StatusNotFoundInNet 0 5) (by decide)⟩

/-- C4 counterexample: `change_task_status` accepts a status id that is not
in the schema; the command succeeds and stores it, breaking membership
integrity. -/
theorem c4_counterexample_junk_status_id :
    (change_task_status c8s1 10 5).2 = none ∧
    mlookup (change_task_status c8s1 10 5).1.data.tasks 10 = some 5 ∧
    ¬ schemaHas (change_task_status c8s1 10 5).1.data.schema 5 := by
  decide

/-! ### C6: remove_status -/

theorem any_eq_true_iff_schemaHas (sch : Schema) (sid : StatusId) :
    (sch.status.any fun p => decide (p.1 = sid)) = true ↔ schemaHas sch sid := by
  simp [schemaHas, List.any_eq_true]

theorem mlookup_mapValues (m : TaskMap) (f : StatusId → StatusId) (t : TaskId) :
    mlookup (mapValues m f) t = (mlookup m t).map f := by
  induction m with
  | nil => rfl
  | cons p rest ih =>
    simp only [mapValues, List.map_cons, mlookup]
    by_cases hp : p.1 = t
    · rw [if_pos hp, if_pos hp]
      rfl
    · rw [if_neg hp, if_neg hp]
      exact ih

/-- Modelled from the spec: §4.1 describes `remove_status` as performing the
two error checks and the structural edit and then running a full propagation
pass (§4.5).  This definition follows that description; it exists only to be
compared against the implementation's `remove_status`. -/
def remove_status_spec (net : ENet) (sid : StatusId) : ENet × Option TaskDomainError :=
  if ¬ net.data.schema.status.any (fun p => decide (p.1 = sid)) then
    (net, some (.StatusNotFoundInNet net.id sid))
  else if sid = net.data.schema.default ∨ sid = net.data.schema.accepted then
    (net, some (.StatusNotRemovable net.id sid))
  else
    propagate_all
      { net with
        data := { net.data with
          tasks := mapValues net.data.tasks
            (fun v => if v = sid then net.data.schema.default else v),
          schema := { net.data.schema with
            status := net.data.schema.status.filter (fun p => decide (p.1 ≠ sid)) } } }

/-- A net on which skipping the propagation pass is observable: the default
status coincides with the accepted status (reachable via
`change_default(accepted)`), task 10 carries removable status 2, task 11
carries status 3, and a Compose edge runs from 10 to 11. -/
def cx6 : ENet :=
  { id := 0,
    data := { relations := ⟨[10, 11], [(10, 11, RelationType.Compose)]⟩,
              schema := { status := [(1, "a"), (2, "x"), (3, "y")], default := 1, accepted := 1 },
              tasks := [(10, 2), (11, 3)] } }

/-- C6 counterexample: `remove_status` does not run the full propagation
pass the claim describes — on `cx6` the implementation leaves task 11 at
status 3 while the edit-then-propagate description would promote it to the
accepted status 1. -/
theorem c6_counterexample_no_propagation :
    (remove_status cx6 2).2 = none ∧
    remove_status cx6 2 ≠ remove_status_spec cx6 2 ∧
    mlookup (remove_status cx6 2).1.data.tasks 11 = some 3 ∧
    mlookup (remove_status_spec cx6 2).1.data.tasks 11 = some 1 := by
  decide

/-- C6 amended: `remove_status(sid)` fails with `StatusNotFoundInNet` when
`sid` is not in the schema, fails with `StatusNotRemovable` when `sid` is
the default or the accepted status, and otherwise succeeds having removed
`sid` from the schema list and reassigned every task carrying `sid` to the
default — with no propagation pass: graph, default and accepted are
untouched and task statuses change pointwise only from `sid` to the
default. -/
theorem c6_remove_status_cases (net : ENet) (sid : StatusId) :
    (¬ schemaHas net.data.schema sid →
      remove_status net sid = (net, some (.StatusNotFoundInNet net.id sid))) ∧
    (schemaHas net.data.schema sid →
      (sid = net.data.schema.default ∨ sid = net.data.schema.accepted) →
      remove_status net sid = (net, some (.StatusNotRemovable net.id sid))) ∧
    (schemaHas net.data.schema sid →
      sid ≠ net.data.schema.default → sid ≠ net.data.schema.accepted →
      (remove_status net sid).2 = none ∧
      (remove_status net sid).1.data.relations = net.data.relations ∧
      (remove_status net sid).1.data.schema.default = net.data.schema.default ∧
      (remove_status net sid).1.data.schema.accepted = net.data.schema.accepted ∧
      (remove_status net sid).1.data.schema.status
        = net.data.schema.status.filter (fun p => decide (p.1 ≠ sid)) ∧
      ∀ t, mlookup (remove_status net sid).1.data.tasks t
        = (mlookup net.data.tasks t).map
            (fun v => if v = sid then net.data.schema.default else v)) := by
  refine ⟨?_, ?_, ?_⟩
  · intro hn
    have hA : ¬ (net.data.schema.status.any fun p => decide (p.1 = sid)) = true :=
      fun h => hn ((any_eq_true_iff_schemaHas net.data.schema sid).mp h)
    unfold remove_status
    rw [if_pos hA]
  · intro hs hd
    have hA : (net.data.schema.status.any fun p => decide (p.1 = sid)) = true :=
      (any_eq_true_iff_schemaHas net.data.schema sid).mpr hs
    unfold remove_status
    rw [if_neg (not_not_intro hA), if_pos hd]
  · intro hs hd ha
    have hA : (net.data.schema.status.any fun p => decide (p.1 = sid)) = true :=
      (any_eq_true_iff_schemaHas net.data.schema sid).mpr hs
    have hB : ¬ (sid = net.data.schema.default ∨ sid = net.data.schema.accepted) := by
      rintro (h | h)
      · exact hd h
      · exact ha h
    unfold remove_status
    rw [if_neg (not_not_intro hA), if_neg hB]
    refine ⟨rfl, rfl, rfl, rfl, rfl, fun t => ?_⟩
    show mlookup
        (mapValues net.data.tasks (fun v => if v = sid then net.data.schema.default else v)) t
      = _
    exact mlookup_mapValues _ _ t

/-- Witness for C6's amended theorem, at the concrete net `cx6`. -/
theorem c6_witness :
    schemaHas cx6.data.schema 2 ∧
    mlookup (remove_status cx6 2).1.data.tasks 10
      = (mlookup cx6.data.tasks 10).map
          (fun v => if v = 2 then cx6.data.schema.default else v) :=
  ⟨by decide,
    ((c6_remove_status_cases cx6 2).2.2 (by decide) (by decide) (by decide)).2.2.2.2.2 10⟩

/-! ### C4: membership integrity -/

/-- Every stored task status is the id of a status currently in the schema. -/
def memValuesOk (net : ENet) : Prop :=
  ∀ t s, mlookup net.data.tasks t = some s → schemaHas net.data.schema s

/-- The default and the accepted status are both in the schema list. -/
def schemaIntegrity (net : ENet) : Prop :=
  schemaHas net.data.schema net.data.schema.default ∧
  schemaHas net.data.schema net.data.schema.accepted

theorem mlookup_map_replace_self (m : TaskMap) (k : TaskId) (v : StatusId)
    (hsome : (mlookup m k).isSome = true) :
    mlookup (m.map (fun p => if p.1 = k then (k, v) else p)) k = some v := by
  induction m with
  | nil => simp [mlookup] at hsome
  | cons p rest ih =>
    by_cases hp : p.1 = k
    · simp [List.map_cons, if_pos hp, mlookup]
    · simp only [mlookup, if_neg hp] at hsome
      simp only [List.map_cons, if_neg hp, mlookup, if_neg hp]
      exact ih hsome

theorem mlookup_append_single_self (m : TaskMap) (k : TaskId) (v : StatusId)
    (hnone : ¬ (mlookup m k).isSome = true) :
    mlookup (m ++ [(k, v)]) k = some v := by
  induction m with
  | nil => simp [mlookup]
  | cons p rest ih =>
    by_cases hp : p.1 = k
    · simp [mlookup, hp] at hnone
    · simp only [mlookup, if_neg hp] at hnone
      simp only [List.cons_append, mlookup, if_neg hp]
      exact ih hnone

theorem mlookup_minsert_self (m : TaskMap) (k : TaskId) (v : StatusId) :
    mlookup (minsert m k v) k = some v := by
  unfold minsert
  split
  · exact mlookup_map_replace_self m k v (by assumption)
  · exact mlookup_append_single_self m k v (by assumption)

theorem mlookup_minsert_cases (m : TaskMap) (k t : TaskId) (v s : StatusId)
    (h : mlookup (minsert m k v) t = some s) : s = v ∨ mlookup m t = some s := by
  by_cases hk : t = k
  · subst hk
    rw [mlookup_minsert_self] at h
    exact Or.inl (Option.some.inj h).symm
  · rw [mlookup_minsert_ne m k t v hk] at h
    exact Or.inr h

theorem mlookup_append_cases (m : TaskMap) (k t : TaskId) (v s : StatusId)
    (h : mlookup (m ++ [(k, v)]) t = some s) : s = v ∨ mlookup m t = some s := by
  by_cases hk : t = k
  · subst hk
    induction m with
    | nil =>
      simp only [List.nil_append, mlookup, if_pos rfl] at h
      exact Or.inl (Option.some.inj h).symm
    | cons p rest ih =>
      simp only [List.cons_append, mlookup] at h
      split at h
      · exact Or.inr (by simp [mlookup, *])
      · rcases ih h with h' | h'
        · exact Or.inl h'
        · exact Or.inr (by simp [mlookup, *])
  · rw [mlookup_append_single_ne m k t v hk] at h
    exact Or.inr h

theorem mlookup_mremove_absent (m : TaskMap) (k : TaskId) :
    mlookup (mremove m k) k = none := by
  induction m with
  | nil => rfl
  | cons p rest ih =>
    unfold mremove at ih ⊢
    simp only [List.filter_cons]
    by_cases hp : p.1 = k
    · rw [if_neg (by simp [hp])]
      exact ih
    · rw [if_pos (by simp [hp])]
      simp only [mlookup, if_neg hp]
      exact ih

theorem mlookup_mremove_sub (m : TaskMap) (k t : TaskId) (s : StatusId)
    (h : mlookup (mremove m k) t = some s) : mlookup m t = some s := by
  by_cases hk : t = k
  · subst hk
    rw [mlookup_mremove_absent] at h
    exact Option.noConfusion h
  · induction m with
    | nil => exact h
    | cons p rest ih =>
      unfold mremove at h ih
      simp only [List.filter_cons] at h
      by_cases hp : p.1 = k
      · rw [if_neg (by simp [hp])] at h
        have hpt : ¬ p.1 = t := by
          rw [hp]
          exact fun hh => hk hh.symm
        simp only [mlookup, if_neg hpt]
        exact ih h
      · rw [if_pos (by simp [hp])] at h
        simp only [mlookup] at h ⊢
        split at h
        · rename_i hcond
          rw [if_pos hcond]
          exact h
        · rename_i hcond
          rw [if_neg hcond]
          exact ih h

theorem schemaHas_iff_mem_map (sch : Schema) (s : StatusId) :
    schemaHas sch s ↔ s ∈ sch.status.map Prod.fst := by
  simp [schemaHas, List.mem_map]

theorem renameFirst_ids (l : List StatusEntry) (sid : StatusId) (nm : String) :
    (renameFirst l sid nm).map Prod.fst = l.map Prod.fst := by
  induction l with
  | nil => rfl
  | cons p rest ih =>
    unfold renameFirst
    split
    · rfl
    · simp only [List.map_cons, ih]

theorem propagateLoop_memValues (net : ENet) (l : List TaskId)
    (hm : memValuesOk net) (hs : schemaIntegrity net) :
    memValuesOk (propagateLoop net l).1 ∧ schemaIntegrity (propagateLoop net l).1 := by
  induction l generalizing net with
  | nil => exact ⟨hm, hs⟩
  | cons task rest ih =>
    unfold propagateLoop
    cases hc : is_controlled_task_accepted net task with
    | error e => exact ⟨hm, hs⟩
    | ok o =>
      cases o with
      | none => exact ih net hm hs
      | some acc =>
        cases hlk : mlookup net.data.tasks task with
        | none => exact ⟨hm, hs⟩
        | some stored =>
          dsimp only
          split
          · exact ih net hm hs
          · refine ih _ ?_ hs
            intro t s h
            rcases mlookup_minsert_cases _ _ _ _ _ h with h' | h'
            · subst h'
              split
              · exact hs.2
              · exact hs.1
            · exact hm t s h'

theorem propagate_memValues (net : ENet) (f : List TaskId → List TaskId)
    (hm : memValuesOk net) (hs : schemaIntegrity net) :
    memValuesOk (propagate net f).1 ∧ schemaIntegrity (propagate net f).1 := by
  unfold propagate
  cases topoSort net.data.relations with
  | none => exact ⟨hm, hs⟩
  | some tasks => exact propagateLoop_memValues net (f tasks) hm hs

theorem memValues_new_status (net : ENet) (sid : StatusId) (nm : String)
    (hm : memValuesOk net) (hs : schemaIntegrity net) :
    memValuesOk (new_status net sid nm).1 ∧ schemaIntegrity (new_status net sid nm).1 := by
  refine ⟨?_, ?_, ?_⟩
  · intro t s h
    obtain ⟨p, hp, hid⟩ := hm t s h
    exact ⟨p, List.mem_append_left _ hp, hid⟩
  · obtain ⟨p, hp, hid⟩ := hs.1
    exact ⟨p, List.mem_append_left _ hp, hid⟩
  · obtain ⟨p, hp, hid⟩ := hs.2
    exact ⟨p, List.mem_append_left _ hp, hid⟩

theorem memValues_remove_status (net : ENet) (sid : StatusId)
    (hm : memValuesOk net) (hs : schemaIntegrity net) :
    memValuesOk (remove_status net sid).1 ∧ schemaIntegrity (remove_status net sid).1 := by
  by_cases hA : (net.data.schema.status.any fun p => decide (p.1 = sid)) = true
  · by_cases hB : sid = net.data.schema.default ∨ sid = net.data.schema.accepted
    · unfold remove_status
      rw [if_neg (not_not_intro hA), if_pos hB]
      exact ⟨hm, hs⟩
    · have hd : sid ≠ net.data.schema.default := fun h => hB (Or.inl h)
      have ha : sid ≠ net.data.schema.accepted := fun h => hB (Or.inr h)
      unfold remove_status
      rw [if_neg (not_not_intro hA), if_neg hB]
      refine ⟨?_, ?_, ?_⟩
      · intro t s h
        have h' : mlookup (mapValues net.data.tasks
              (fun v => if v = sid then net.data.schema.default else v)) t = some s := h
        rw [mlookup_mapValues] at h'
        rcases Option.map_eq_some'.mp h' with ⟨s0, hs0, hfs⟩
        by_cases h0 : s0 = sid
        · rw [if_pos h0] at hfs
          subst hfs
          obtain ⟨p, hp, hid⟩ := hs.1
          exact ⟨p, List.mem_filter.mpr ⟨hp, by simp [hid, Ne.symm hd]⟩, hid⟩
        · rw [if_neg h0] at hfs
          subst hfs
          obtain ⟨p, hp, hid⟩ := hm t s0 hs0
          exact ⟨p, List.mem_filter.mpr ⟨hp, by simp [hid, h0]⟩, hid⟩
      · obtain ⟨p, hp, hid⟩ := hs.1
        exact ⟨p, List.mem_filter.mpr ⟨hp, by simp [hid, Ne.symm hd]⟩, hid⟩
      · obtain ⟨p, hp, hid⟩ := hs.2
        exact ⟨p, List.mem_filter.mpr ⟨hp, by simp [hid, Ne.symm ha]⟩, hid⟩
  · unfold remove_status
    rw [if_pos hA]
    exact ⟨hm, hs⟩

theorem memValues_change_status_name (net : ENet) (sid : StatusId) (nm : String)
    (hm : memValuesOk net) (hs : schemaIntegrity net) :
    memValuesOk (change_status_name net sid nm).1 ∧
    schemaIntegrity (change_status_name net sid nm).1 := by
  by_cases hA : (net.data.schema.status.any fun p => decide (p.1 = sid)) = true
  · unfold change_status_name
    rw [if_pos hA]
    have hkey : ∀ s, schemaHas net.data.schema s →
        (∃ p ∈ renameFirst net.data.schema.status sid nm, p.1 = s) := by
      intro s hhas
      have : s ∈ (renameFirst net.data.schema.status sid nm).map Prod.fst := by
        rw [renameFirst_ids]
        exact (schemaHas_iff_mem_map net.data.schema s).mp hhas
      rcases List.mem_map.mp this with ⟨p, hp, hid⟩
      exact ⟨p, hp, hid⟩
    exact ⟨fun t s h => hkey s (hm t s h), hkey _ hs.1, hkey _ hs.2⟩
  · unfold change_status_name
    rw [if_neg hA]
    exact ⟨hm, hs⟩

theorem memValues_change_default (net : ENet) (nd : StatusId)
    (hm : memValuesOk net) (hs : schemaIntegrity net) :
    memValuesOk (change_default net nd).1 ∧ schemaIntegrity (change_default net nd).1 := by
  by_cases hA : (net.data.schema.status.any fun p => decide (p.1 = nd)) = true
  · have hnd : schemaHas net.data.schema nd :=
      (any_eq_true_iff_schemaHas net.data.schema nd).mp hA
    unfold change_default
    rw [if_neg (not_not_intro hA)]
    refine ⟨?_, hnd, hs.2⟩
    intro t s h
    have h' : mlookup (mapValues net.data.tasks
          (fun v => if v = net.data.schema.default then nd else v)) t = some s := h
    rw [mlookup_mapValues] at h'
    rcases Option.map_eq_some'.mp h' with ⟨s0, hs0, hfs⟩
    by_cases h0 : s0 = net.data.schema.default
    · rw [if_pos h0] at hfs
      subst hfs
      exact hnd
    · rw [if_neg h0] at hfs
      subst hfs
      exact hm t s0 hs0
  · unfold change_default
    rw [if_pos hA]
    exact ⟨hm, hs⟩

theorem memValues_add_task (net : ENet) (tid : TaskId)
    (hm : memValuesOk net) (hs : schemaIntegrity net) :
    memValuesOk (add_task net tid).1 ∧ schemaIntegrity (add_task net tid).1 := by
  by_cases hA : (mlookup net.data.tasks tid).isSome = true
  · unfold add_task
    rw [if_pos hA]
    exact ⟨hm, hs⟩
  · unfold add_task
    rw [if_neg hA]
    refine ⟨?_, hs.1, hs.2⟩
    intro t s h
    have h' : mlookup (net.data.tasks ++ [(tid, net.data.schema.default)]) t = some s := h
    rcases mlookup_append_cases _ _ _ _ _ h' with h'' | h''
    · subst h''
      exact hs.1
    · exact hm t s h''

theorem memValues_change_task_status (net : ENet) (tid : TaskId) (sid : StatusId)
    (hm : memValuesOk net) (hs : schemaIntegrity net)
    (hok : schemaHas net.data.schema sid) :
    memValuesOk (change_task_status net tid sid).1 ∧
    schemaIntegrity (change_task_status net tid sid).1 := by
  unfold change_task_status
  cases is_controlled_task_accepted net tid with
  | error e => exact ⟨hm, hs⟩
  | ok o =>
    cases o with
    | some b => exact ⟨hm, hs⟩
    | none =>
      cases mlookup net.data.tasks tid with
      | none => exact ⟨hm, hs⟩
      | some stored =>
        refine propagate_memValues _ _ ?_ hs
        intro t s h
        rcases mlookup_minsert_cases _ _ _ _ _ h with h' | h'
        · subst h'
          exact hok
        · exact hm t s h'

theorem memValues_new_relation (net : ENet) (a b : TaskId) (ty : RelationType)
    (hm : memValuesOk net) (hs : schemaIntegrity net) :
    memValuesOk (new_relation net a b ty).1 ∧ schemaIntegrity (new_relation net a b ty).1 := by
  unfold new_relation
  split
  · exact ⟨hm, hs⟩
  · exact propagate_memValues _ _ hm hs

theorem memValues_remove_task (net : ENet) (tid : TaskId)
    (hm : memValuesOk net) (hs : schemaIntegrity net) :
    memValuesOk (remove_task net tid).1 ∧ schemaIntegrity (remove_task net tid).1 := by
  unfold remove_task
  refine propagate_memValues _ _ ?_ hs
  intro t s h
  exact hm t s (mlookup_mremove_sub _ _ _ _ h)

theorem memValues_remove_relation (net : ENet) (a b : TaskId)
    (hm : memValuesOk net) (hs : schemaIntegrity net) :
    memValuesOk (remove_relation net a b).1 ∧
    schemaIntegrity (remove_relation net a b).1 := by
  unfold remove_relation
  exact propagate_memValues _ _ hm hs

/-- C4 amended: membership integrity is preserved by every successful
command provided the starting state also satisfies schema integrity and
`change_task_status` is only invoked with a status id of the schema; the
claim's "for any sid" fails (counterexample). -/
theorem c4_membership_integrity_step (net net' : ENet) (c : Cmd)
    (hm : memValuesOk net) (hs : schemaIntegrity net)
    (hok : ∀ tid sid, c = Cmd.change_task_status tid sid → schemaHas net.data.schema sid)
    (hsucc : applyCmd c net = (net', none)) :
    memValuesOk net' ∧ schemaIntegrity net' := by
  have hn : net' = (applyCmd c net).1 := by rw [hsucc]
  subst hn
  cases c with
  | new_status sid nm => exact memValues_new_status net sid nm hm hs
  | remove_status sid => exact memValues_remove_status net sid hm hs
  | change_status_name sid nm => exact memValues_change_status_name net sid nm hm hs
  | change_default sid => exact memValues_change_default net sid hm hs
  | add_task tid => exact memValues_add_task net tid hm hs
  | remove_task tid => exact memValues_remove_task net tid hm hs
  | new_relation a b ty => exact memValues_new_relation net a b ty hm hs
  | remove_relation a b => exact memValues_remove_relation net a b hm hs
  | change_task_status tid sid =>
    exact memValues_change_task_status net tid sid hm hs (hok tid sid rfl)

/-- Witness for C4's amended theorem: a successful `add_task` on the fresh
net preserves membership and schema integrity. -/
theorem c4_witness :
    memValuesOk (add_task bootNet 10).1 ∧ schemaIntegrity (add_task bootNet 10).1 :=
  c4_membership_integrity_step bootNet (add_task bootNet 10).1 (Cmd.add_task 10)
    (fun t s h => nomatch h)
    ⟨by decide, by decide⟩
    (fun tid sid h => nomatch h)
    (by decide)

/-! ### Reachability: the saturation computes `Reach` -/

theorem mem_stepReach_of_mem (g : Graph) (s : List TaskId) (x : TaskId)
    (h : x ∈ s) : x ∈ stepReach g s :=
  List.mem_dedup.mpr (List.mem_append_left _ h)

theorem mem_stepReach_edge (g : Graph) (s : List TaskId) (x y : TaskId)
    (ty : RelationType) (hx : x ∈ s) (he : (x, y, ty) ∈ g.edges) :
    y ∈ stepReach g s := by
  refine List.mem_dedup.mpr (List.mem_append_right _ ?_)
  refine List.mem_map.mpr ⟨(x, y, ty), ?_, rfl⟩
  exact List.mem_filter.mpr ⟨he, by simpa using hx⟩

theorem mem_stepReach_iff (g : Graph) (s : List TaskId) (x : TaskId) :
    x ∈ stepReach g s ↔ x ∈ s ∨ ∃ e ∈ g.edges, e.1 ∈ s ∧ e.2.1 = x := by
  constructor
  · intro h
    rcases List.mem_append.mp (List.mem_dedup.mp h) with h' | h'
    · exact Or.inl h'
    · rcases List.mem_map.mp h' with ⟨e, he, hx⟩
      rcases List.mem_filter.mp he with ⟨hee, hes⟩
      exact Or.inr ⟨e, hee, by simpa using hes, hx⟩
  · rintro (h | ⟨e, he, hes, hx⟩)
    · exact mem_stepReach_of_mem g s x h
    · subst hx
      exact mem_stepReach_edge g s e.1 e.2.1 e.2.2 hes he

theorem reachN_mono (g : Graph) (a : TaskId) {n m : Nat} (h : n ≤ m) :
    ∀ x, x ∈ reachN g a n → x ∈ reachN g a m := by
  induction m with
  | zero =>
    intro x hx
    rw [Nat.le_zero.mp h] at hx
    exact hx
  | succ m ih =>
    intro x hx
    rcases Nat.lt_or_ge n (m + 1) with h' | h'
    · exact mem_stepReach_of_mem g _ x (ih (Nat.lt_succ_iff.mp h') x hx)
    · rw [Nat.le_antisymm h h'] at hx
      exact hx

theorem reach_mem_reachN (g : Graph) (a b : TaskId) (h : Reach g a b) :
    ∃ n, b ∈ reachN g a n := by
  induction h with
  | refl => exact ⟨0, List.mem_singleton.mpr rfl⟩
  | tail hxz hzy ih =>
    obtain ⟨n, hn⟩ := ih
    obtain ⟨ty, hty⟩ := hzy
    exact ⟨n + 1, mem_stepReach_edge g _ _ _ ty hn hty⟩

/-- Everything the saturation can ever contain: the start plus edge targets. -/
def reachUniv (g : Graph) (a : TaskId) : List TaskId :=
  a :: g.edges.map (fun e => e.2.1)

theorem reachN_sub_univ (g : Graph) (a : TaskId) (n : Nat) :
    ∀ x, x ∈ reachN g a n → x ∈ reachUniv g a := by
  induction n with
  | zero =>
    intro x hx
    rw [List.mem_singleton.mp hx]
    exact List.mem_cons_self _ _
  | succ n ih =>
    intro x hx
    rcases (mem_stepReach_iff g _ x).mp hx with h' | ⟨e, he, _, hx'⟩
    · exact ih x h'
    · subst hx'
      exact List.mem_cons_of_mem _ (List.mem_map.mpr ⟨e, he, rfl⟩)

theorem reachN_nodup (g : Graph) (a : TaskId) (n : Nat) : (reachN g a n).Nodup := by
  cases n with
  | zero => exact List.nodup_singleton a
  | succ n => exact List.nodup_dedup _

theorem stepReach_congr (g : Graph) (s t : List TaskId)
    (h : ∀ x, x ∈ s ↔ x ∈ t) : ∀ x, x ∈ stepReach g s ↔ x ∈ stepReach g t := by
  intro x
  rw [mem_stepReach_iff, mem_stepReach_iff]
  constructor
  · rintro (h' | ⟨e, he, hes, hx⟩)
    · exact Or.inl ((h x).mp h')
    · exact Or.inr ⟨e, he, (h e.1).mp hes, hx⟩
  · rintro (h' | ⟨e, he, hes, hx⟩)
    · exact Or.inl ((h x).mpr h')
    · exact Or.inr ⟨e, he, (h e.1).mpr hes, hx⟩

theorem reachN_stable (g : Graph) (a : TaskId) (n : Nat)
    (h : ∀ x, x ∈ reachN g a (n + 1) ↔ x ∈ reachN g a n) :
    ∀ m, n ≤ m → ∀ x, x ∈ reachN g a m ↔ x ∈ reachN g a n := by
  intro m hm
  induction m with
  | zero =>
    rw [Nat.le_zero.mp hm]
    exact fun x => Iff.rfl
  | succ m ih =>
    rcases Nat.lt_or_ge n (m + 1) with h' | h'
    · have hmn : n ≤ m := Nat.lt_succ_iff.mp h'
      intro x
      have hcongr := stepReach_congr g (reachN g a m) (reachN g a n) (ih hmn) x
      exact hcongr.trans (h x)
    · rw [Nat.le_antisymm hm h']
      exact fun x => Iff.rfl

theorem reachN_strict_growth (g : Graph) (a : TaskId) (n : Nat)
    (hns : ∀ i < n, ¬ ∀ x, x ∈ reachN g a (i + 1) ↔ x ∈ reachN g a i) :
    n + 1 ≤ (reachN g a n).length := by
  induction n with
  | zero => exact Nat.le_refl 1
  | succ n ih =>
    have hlen : n + 1 ≤ (reachN g a n).length :=
      ih (fun i hi => hns i (Nat.lt_succ_of_lt hi))
    have hnstable := hns n (Nat.lt_succ_self n)
    have hwit : ∃ x, x ∈ reachN g a (n + 1) ∧ x ∉ reachN g a n := by
      by_contra hco
      push_neg at hco
      exact hnstable (fun x =>
        ⟨fun hx => hco x hx, fun hx => reachN_mono g a (Nat.le_succ n) x hx⟩)
    obtain ⟨x, hx1, hx0⟩ := hwit
    have hsub : (reachN g a n).toFinset ⊂ (reachN g a (n + 1)).toFinset := by
      constructor
      · intro y hy
        exact List.mem_toFinset.mpr
          (reachN_mono g a (Nat.le_succ n) y (List.mem_toFinset.mp hy))
      · intro hcon
        exact hx0 (List.mem_toFinset.mp (hcon (List.mem_toFinset.mpr hx1)))
    have hcard := Finset.card_lt_card hsub
    rw [List.toFinset_card_of_nodup (reachN_nodup g a n),
        List.toFinset_card_of_nodup (reachN_nodup g a (n + 1))] at hcard
    omega

theorem reachN_length_le_univ (g : Graph) (a : TaskId) (n : Nat) :
    (reachN g a n).length ≤ (reachUniv g a).length := by
  have h1 : (reachN g a n).toFinset ⊆ (reachUniv g a).toFinset := by
    intro y hy
    exact List.mem_toFinset.mpr (reachN_sub_univ g a n y (List.mem_toFinset.mp hy))
  have h2 := Finset.card_le_card h1
  rw [List.toFinset_card_of_nodup (reachN_nodup g a n)] at h2
  exact h2.trans (List.toFinset_card_le (reachUniv g a))

theorem exists_stable_iteration (g : Graph) (a : TaskId) :
    ∃ i ≤ (reachUniv g a).length,
      ∀ x, x ∈ reachN g a (i + 1) ↔ x ∈ reachN g a i := by
  by_contra hco
  have hall : ∀ i < (reachUniv g a).length + 1,
      ¬ ∀ x, x ∈ reachN g a (i + 1) ↔ x ∈ reachN g a i := by
    intro i hi hst
    exact hco ⟨i, Nat.lt_succ_iff.mp hi, hst⟩
  have := reachN_strict_growth g a ((reachUniv g a).length + 1) hall
  have := reachN_length_le_univ g a ((reachUniv g a).length + 1)
  omega

theorem reach_hasPath (g : Graph) (a b : TaskId) (h : Reach g a b) :
    hasPathConnecting g a b = true := by
  obtain ⟨n, hn⟩ := reach_mem_reachN g a b h
  obtain ⟨i, hile, hstable⟩ := exists_stable_iteration g a
  have huniv : (reachUniv g a).length = g.edges.length + 1 := by
    simp [reachUniv]
  have hiN : i ≤ g.nodes.length + g.edges.length + 1 := by omega
  unfold hasPathConnecting
  refine decide_eq_true ?_
  rcases Nat.le_total n (g.nodes.length + g.edges.length + 1) with h' | h'
  · exact reachN_mono g a h' b hn
  · have hmem : b ∈ reachN g a i :=
      (reachN_stable g a i hstable n (by omega) b).mp hn
    exact reachN_mono g a hiN b hmem

/-! ### Acyclicity -/

theorem addNode_edges (g : Graph) (n : TaskId) : (addNode g n).edges = g.edges := by
  unfold addNode
  split <;> rfl

theorem addEdge_mem_edges (g : Graph) (a b : TaskId) (ty : RelationType) (e : Edge)
    (h : e ∈ (addEdge g a b ty).edges) : e ∈ g.edges ∨ e = (a, b, ty) := by
  unfold addEdge at h
  dsimp only at h
  rw [addNode_edges, addNode_edges] at h
  split at h
  · replace h : e ∈ g.edges.map (fun e => if e.1 = a ∧ e.2.1 = b then (a, b, ty) else e) := h
    rcases List.mem_map.mp h with ⟨e0, he0, heq⟩
    by_cases hc : e0.1 = a ∧ e0.2.1 = b
    · rw [if_pos hc] at heq
      exact Or.inr heq.symm
    · rw [if_neg hc] at heq
      exact Or.inl (heq ▸ he0)
  · replace h : e ∈ g.edges ++ [(a, b, ty)] := h
    rcases List.mem_append.mp h with h' | h'
    · exact Or.inl h'
    · exact Or.inr (List.mem_singleton.mp h')

theorem edgeRel_addEdge_cases (g : Graph) (a b : TaskId) (ty : RelationType)
    (x y : TaskId) (h : edgeRel (addEdge g a b ty) x y) :
    edgeRel g x y ∨ (x = a ∧ y = b) := by
  obtain ⟨ty', hty⟩ := h
  rcases addEdge_mem_edges g a b ty _ hty with h' | h'
  · exact Or.inl ⟨ty', h'⟩
  · have h1 : x = a := congrArg (fun e : Edge => e.1) h'
    have h3 : y = b := congrArg (fun e : Edge => e.2.1) h'
    exact Or.inr ⟨h1, h3⟩

theorem reach_addEdge_decompose (g : Graph) (a b : TaskId) (ty : RelationType)
    (x y : TaskId) (h : Reach (addEdge g a b ty) x y) :
    Reach g x y ∨ (Reach g x a ∧ Reach g b y) := by
  induction h with
  | refl => exact Or.inl Relation.ReflTransGen.refl
  | tail hxz hzy ih =>
    rcases edgeRel_addEdge_cases g a b ty _ _ hzy with hold | ⟨hza, hyb⟩
    · rcases ih with h' | ⟨h1, h2⟩
      · exact Or.inl (h'.tail hold)
      · exact Or.inr ⟨h1, h2.tail hold⟩
    · subst hza
      subst hyb
      rcases ih with h' | ⟨h1, _⟩
      · exact Or.inr ⟨h', Relation.ReflTransGen.refl⟩
      · exact Or.inr ⟨h1, Relation.ReflTransGen.refl⟩

theorem noCycle_addEdge (g : Graph) (a b : TaskId) (ty : RelationType)
    (hnc : noCycle g) (hnr : ¬ Reach g b a) : noCycle (addEdge g a b ty) := by
  intro x y hxy hreach
  rcases edgeRel_addEdge_cases g a b ty x y hxy with hold | ⟨hxa, hyb⟩
  · rcases reach_addEdge_decompose g a b ty y x hreach with h' | ⟨h1, h2⟩
    · exact hnc x y hold h'
    · exact hnr ((h2.tail hold).trans h1)
  · rw [hxa, hyb] at hreach
    rcases reach_addEdge_decompose g a b ty b a hreach with h' | ⟨_, h2⟩
    · exact hnr h'
    · exact hnr h2

theorem noCycle_anti (g g' : Graph)
    (h : ∀ x y, edgeRel g' x y → edgeRel g x y) (hnc : noCycle g) : noCycle g' :=
  fun x y he hr => hnc x y (h x y he) (Relation.ReflTransGen.mono h hr)

theorem edgeRel_removeNode (g : Graph) (n : TaskId) (x y : TaskId)
    (h : edgeRel (removeNode g n) x y) : edgeRel g x y := by
  obtain ⟨ty, hty⟩ := h
  exact ⟨ty, (List.mem_filter.mp hty).1⟩

theorem edgeRel_removeEdge (g : Graph) (a b : TaskId) (x y : TaskId)
    (h : edgeRel (removeEdge g a b) x y) : edgeRel g x y := by
  obtain ⟨ty, hty⟩ := h
  exact ⟨ty, (List.mem_filter.mp hty).1⟩

theorem edgeRel_addNode (g : Graph) (n : TaskId) (x y : TaskId)
    (h : edgeRel (addNode g n) x y) : edgeRel g x y := by
  obtain ⟨ty, hty⟩ := h
  rw [addNode_edges] at hty
  exact ⟨ty, hty⟩

theorem propagate_graph_frame (net : ENet) (f : List TaskId → List TaskId) :
    (propagate net f).1.data.relations = net.data.relations := by
  unfold propagate
  cases topoSort net.data.relations with
  | none => rfl
  | some tasks => exact (propagateLoop_frame net (f tasks)).1

/-- The guard of a successful `new_relation`: there is no path from `to`
back to `from`. -/
theorem new_relation_success_no_reach (net : ENet) (a b : TaskId) (ty : RelationType)
    (net' : ENet) (hsucc : new_relation net a b ty = (net', none)) :
    ¬ Reach net.data.relations b a := by
  intro hr
  unfold new_relation at hsucc
  rw [if_pos (reach_hasPath _ _ _ hr)] at hsucc
  exact Option.noConfusion (congrArg Prod.snd hsucc)

theorem noCycle_step (net net' : ENet) (c : Cmd)
    (hnc : noCycle net.data.relations)
    (hsucc : applyCmd c net = (net', none)) : noCycle net'.data.relations := by
  have hn : net' = (applyCmd c net).1 := by rw [hsucc]
  cases c with
  | new_status sid nm =>
    subst hn
    exact hnc
  | remove_status sid =>
    subst hn
    show noCycle (remove_status net sid).1.data.relations
    unfold remove_status
    split
    · exact hnc
    · split
      · exact hnc
      · exact hnc
  | change_status_name sid nm =>
    subst hn
    show noCycle (change_status_name net sid nm).1.data.relations
    unfold change_status_name
    split
    · exact hnc
    · exact hnc
  | change_default sid =>
    subst hn
    show noCycle (change_default net sid).1.data.relations
    unfold change_default
    split
    · exact hnc
    · exact hnc
  | add_task tid =>
    subst hn
    show noCycle (add_task net tid).1.data.relations
    unfold add_task
    split
    · exact hnc
    · exact noCycle_anti _ _ (edgeRel_addNode net.data.relations tid) hnc
  | remove_task tid =>
    subst hn
    show noCycle (remove_task net tid).1.data.relations
    unfold remove_task propagate_all
    rw [propagate_graph_frame]
    exact noCycle_anti _ _ (edgeRel_removeNode net.data.relations tid) hnc
  | remove_relation a b =>
    subst hn
    show noCycle (remove_relation net a b).1.data.relations
    unfold remove_relation
    rw [show (propagate_at
        { net with data := { net.data with
            relations := removeEdge net.data.relations a b } } b).1.data.relations
      = removeEdge net.data.relations a b from propagate_graph_frame _ _]
    exact noCycle_anti _ _ (edgeRel_removeEdge net.data.relations a b) hnc
  | new_relation a b ty =>
    have hnr : ¬ Reach net.data.relations b a :=
      new_relation_success_no_reach net a b ty net' hsucc
    subst hn
    show noCycle (new_relation net a b ty).1.data.relations
    unfold new_relation
    split
    · exact hnc
    · rw [show (propagate_at
          { net with data := { net.data with
              relations := addEdge net.data.relations a b ty } } b).1.data.relations
        = addEdge net.data.relations a b ty from propagate_graph_frame _ _]
      exact noCycle_addEdge net.data.relations a b ty hnc hnr
  | change_task_status tid sid =>
    subst hn
    show noCycle (change_task_status net tid sid).1.data.relations
    unfold change_task_status
    cases is_controlled_task_accepted net tid with
    | error e => exact hnc
    | ok o =>
      cases o with
      | some bb => exact hnc
      | none =>
        cases mlookup net.data.tasks tid with
        | none => exact hnc
        | some stored =>
          dsimp only
          rw [show (propagate_from (updStatus net tid sid) tid).1.data.relations
              = net.data.relations from propagate_graph_frame _ _]
          exact hnc

/-- C7: `new_relation(from, to, ty)` fails with `CycleNotAllowedInNet` and
leaves the net unchanged whenever a path `to → … → from` already exists;
consequently every net reachable by successful commands has an acyclic
relation graph; concretely (S4), after `new_relation(10, 11, Require)`
succeeds, `new_relation(11, 10, Require)` fails with
`CycleNotAllowedInNet` and the graph holds exactly the first edge. -/
theorem c7_acyclicity :
    (∀ (net : ENet) (a b : TaskId) (ty : RelationType),
        Reach net.data.relations b a →
        new_relation net a b ty = (net, some (.CycleNotAllowedInNet net.id))) ∧
    (∀ net : ENet, Reachable net → noCycle net.data.relations) ∧
    (new_relation c8s2 10 11 RelationType.Require).2 = none ∧
    new_relation s2s3 11 10 RelationType.Require
      = (s2s3, some (.CycleNotAllowedInNet 0)) ∧
    s2s3.data.relations.edges = [(10, 11, RelationType.Require)] := by
  refine ⟨?_, ?_, by decide, ?_, by decide⟩
  · intro net a b ty hr
    unfold new_relation
    rw [if_pos (reach_hasPath _ _ _ hr)]
  · intro net hre
    induction hre with
    | boot net hb =>
      rw [hb.1]
      intro x y he
      obtain ⟨ty, hty⟩ := he
      exact absurd hty (List.not_mem_nil _)
    | step net net' c hre hsucc ih => exact noCycle_step net net' c ih hsucc
  · have hr : Reach s2s3.data.relations 10 11 :=
      Relation.ReflTransGen.single ⟨RelationType.Require, by decide⟩
    unfold new_relation
    rw [if_pos (reach_hasPath _ _ _ hr)]
    rw [show s2s3.id = 0 from by decide]

/-- Witness for C7: the guard fires at a concrete reachable net, and the
fresh net is acyclic. -/
theorem c7_witness :
    new_relation s2s4 11 10 RelationType.Compose
      = (s2s4, some (.CycleNotAllowedInNet 0)) ∧
    noCycle bootNet.data.relations :=
  ⟨c7_acyclicity.1 s2s4 11 10 RelationType.Compose
      (Relation.ReflTransGen.single ⟨RelationType.Require, by decide⟩),
    c7_acyclicity.2.1 bootNet (Reachable.boot bootNet
      ⟨rfl, rfl, by decide, ⟨(0, "d"), by decide, rfl⟩, ⟨(1, "a"), by decide, rfl⟩⟩)⟩

/-! ### Topological sort: characterization -/

theorem noInEdge_true_iff (edges : List Edge) (rem : List TaskId) (n : TaskId) :
    noInEdgeFromB edges rem n = true ↔ ∀ e ∈ edges, ¬(e.2.1 = n ∧ e.1 ∈ rem) := by
  unfold noInEdgeFromB
  rw [List.all_eq_true]
  constructor
  · intro h e he hc
    have h2 := h e he
    have hand : (decide (e.2.1 = n) && decide (e.1 ∈ rem)) = true := by
      rw [decide_eq_true hc.1, decide_eq_true hc.2]
      rfl
    rw [hand] at h2
    exact Bool.noConfusion h2
  · intro h e he
    have hand : (decide (e.2.1 = n) && decide (e.1 ∈ rem)) = false := by
      by_cases h1 : e.2.1 = n
      · by_cases h2 : e.1 ∈ rem
        · exact absurd ⟨h1, h2⟩ (h e he)
        · rw [decide_eq_false h2, Bool.and_false]
      · rw [decide_eq_false h1, Bool.false_and]
    rw [hand]
    rfl

theorem pickSource_mem (edges : List Edge) (rem : List TaskId) (n : TaskId)
    (h : pickSource edges rem = some n) : n ∈ rem :=
  List.mem_of_find?_eq_some h

theorem pickSource_prop (edges : List Edge) (rem : List TaskId) (n : TaskId)
    (h : pickSource edges rem = some n) :
    ∀ e ∈ edges, ¬(e.2.1 = n ∧ e.1 ∈ rem) :=
  (noInEdge_true_iff edges rem n).mp (List.find?_some h)

theorem pickSource_none (edges : List Edge) (rem : List TaskId)
    (h : pickSource edges rem = none) :
    ∀ n ∈ rem, ∃ e ∈ edges, e.2.1 = n ∧ e.1 ∈ rem := by
  intro n hn
  have := List.find?_eq_none.mp h n hn
  rw [noInEdge_true_iff] at this
  push_neg at this
  obtain ⟨e, he, h1, h2⟩ := this
  exact ⟨e, he, h1, h2⟩

theorem topoAuxF_perm (edges : List Edge) :
    ∀ (fuel : Nat) (rem : List TaskId) (l : List TaskId),
      topoAuxF edges fuel rem = some l → l.Perm rem := by
  intro fuel
  induction fuel with
  | zero =>
    intro rem l h
    unfold topoAuxF at h
    split at h
    · rename_i hre
      rw [← Option.some.inj h]
      rw [List.isEmpty_iff.mp hre]
    · exact Option.noConfusion h
  | succ fuel ih =>
    intro rem l h
    unfold topoAuxF at h
    split at h
    · rename_i hre
      rw [← Option.some.inj h]
      rw [List.isEmpty_iff.mp hre]
    · cases hpick : pickSource edges rem with
      | none =>
        rw [hpick] at h
        exact Option.noConfusion h
      | some n =>
        rw [hpick] at h
        rcases Option.map_eq_some'.mp h with ⟨l', hl', heq⟩
        rw [← heq]
        have hmem := pickSource_mem edges rem n hpick
        exact ((ih _ l' hl').cons n).trans (List.perm_cons_erase hmem).symm

theorem topoAuxF_pairwise (edges : List Edge) :
    ∀ (fuel : Nat) (rem : List TaskId) (l : List TaskId),
      topoAuxF edges fuel rem = some l →
      l.Pairwise (fun x y => ∀ ty, (y, x, ty) ∉ edges) := by
  intro fuel
  induction fuel with
  | zero =>
    intro rem l h
    unfold topoAuxF at h
    split at h
    · rw [← Option.some.inj h]
      exact List.Pairwise.nil
    · exact Option.noConfusion h
  | succ fuel ih =>
    intro rem l h
    unfold topoAuxF at h
    split at h
    · rw [← Option.some.inj h]
      exact List.Pairwise.nil
    · cases hpick : pickSource edges rem with
      | none =>
        rw [hpick] at h
        exact Option.noConfusion h
      | some n =>
        rw [hpick] at h
        rcases Option.map_eq_some'.mp h with ⟨l', hl', heq⟩
        rw [← heq]
        refine List.Pairwise.cons ?_ (ih _ l' hl')
        intro y hy ty hmem
        have hyrem : y ∈ rem :=
          List.mem_of_mem_erase ((topoAuxF_perm edges fuel _ l' hl').mem_iff.mp hy)
        exact pickSource_prop edges rem n hpick (y, n, ty) hmem ⟨rfl, hyrem⟩

theorem exists_cycle_of_no_source (g : Graph) (rem : List TaskId)
    (hne : rem ≠ [])
    (hkey : ∀ n ∈ rem, ∃ m, m ∈ rem ∧ edgeRel g m n) :
    ∃ x y, edgeRel g x y ∧ Reach g y x := by
  classical
  obtain ⟨n0, hn0⟩ : ∃ n, n ∈ rem := by
    cases rem with
    | nil => exact absurd rfl hne
    | cons a rest => exact ⟨a, List.mem_cons_self a rest⟩
  let F : Nat → {x : TaskId // x ∈ rem} := fun k =>
    Nat.rec ⟨n0, hn0⟩ (fun _ p => ⟨(hkey p.1 p.2).choose, (hkey p.1 p.2).choose_spec.1⟩) k
  have hF : ∀ k, edgeRel g (F (k + 1)).1 (F k).1 := fun k =>
    (hkey (F k).1 (F k).2).choose_spec.2
  have hchain : ∀ d k, Reach g (F (k + d)).1 (F k).1 := by
    intro d
    induction d with
    | zero => exact fun k => Relation.ReflTransGen.refl
    | succ d ihd =>
      intro k
      have h1 : edgeRel g (F (k + d + 1)).1 (F (k + d)).1 := hF (k + d)
      exact Relation.ReflTransGen.head h1 (ihd k)
  have hmaps : ∀ k ∈ Finset.range (rem.length + 1), (F k).1 ∈ rem.toFinset :=
    fun k _ => List.mem_toFinset.mpr (F k).2
  have hcard : rem.toFinset.card < (Finset.range (rem.length + 1)).card := by
    rw [Finset.card_range]
    exact Nat.lt_succ_of_le (List.toFinset_card_le rem)
  obtain ⟨i, hi, j, hj, hij, hFij⟩ :=
    Finset.exists_ne_map_eq_of_card_lt_of_maps_to hcard hmaps
  have key : ∀ i j : Nat, i < j → (F i).1 = (F j).1 →
      ∃ x y, edgeRel g x y ∧ Reach g y x := by
    intro i j hlt heq
    refine ⟨(F (i + 1)).1, (F i).1, hF i, ?_⟩
    have hj' : (i + 1) + (j - i - 1) = j := by omega
    have := hchain (j - i - 1) (i + 1)
    rw [hj'] at this
    rw [heq]
    exact this
  rcases Nat.lt_trichotomy i j with hlt | heq | hgt
  · exact key i j hlt hFij
  · exact absurd heq hij
  · exact key j i hgt hFij.symm

theorem topoAuxF_isSome (g : Graph) (hnc : noCycle g) :
    ∀ (fuel : Nat) (rem : List TaskId), rem.length ≤ fuel →
      (topoAuxF g.edges fuel rem).isSome = true := by
  intro fuel
  induction fuel with
  | zero =>
    intro rem hlen
    have : rem = [] := List.length_eq_zero.mp (Nat.le_zero.mp hlen)
    subst this
    rfl
  | succ fuel ih =>
    intro rem hlen
    unfold topoAuxF
    by_cases hre : rem.isEmpty
    · rw [if_pos hre]
      rfl
    · rw [if_neg hre]
      cases hpick : pickSource g.edges rem with
      | none =>
        exfalso
        have hne : rem ≠ [] := fun h => hre (h ▸ rfl)
        have hkey : ∀ n ∈ rem, ∃ m, m ∈ rem ∧ edgeRel g m n := by
          intro n hn
          obtain ⟨e, he, h1, h2⟩ := pickSource_none g.edges rem hpick n hn
          exact ⟨e.1, h2, ⟨e.2.2, by rw [← h1]; exact he⟩⟩
        obtain ⟨x, y, hxy, hyx⟩ := exists_cycle_of_no_source g rem hne hkey
        exact hnc x y hxy hyx
      | some n =>
        have hmem := pickSource_mem g.edges rem n hpick
        have hlen' : (rem.erase n).length ≤ fuel := by
          rw [List.length_erase_of_mem hmem]
          have : 1 ≤ rem.length := List.length_pos.mpr (fun h => hre (h ▸ rfl))
          omega
        have := ih (rem.erase n) hlen'
        show (Option.map (fun l => n :: l) (topoAuxF g.edges fuel (rem.erase n))).isSome = true
        cases h2 : topoAuxF g.edges fuel (rem.erase n) with
        | none =>
          rw [h2] at this
          exact absurd this (by simp)
        | some l => rfl

theorem topoSort_isSome (g : Graph) (hnc : noCycle g) : (topoSort g).isSome = true :=
  topoAuxF_isSome g hnc g.nodes.length g.nodes (Nat.le_refl _)

theorem topoSort_perm (g : Graph) (l : List TaskId) (h : topoSort g = some l) :
    l.Perm g.nodes :=
  topoAuxF_perm g.edges g.nodes.length g.nodes l h

theorem topoSort_pairwise (g : Graph) (l : List TaskId) (h : topoSort g = some l) :
    l.Pairwise (fun x y => ∀ ty, (y, x, ty) ∉ g.edges) :=
  topoAuxF_pairwise g.edges g.nodes.length g.nodes l h

/-! ### Coherent nets: propagation succeeds -/

/-- Every edge endpoint is a node of the graph (always true for graphs built
by `DiGraphMap` operations). -/
def wfGraph (g : Graph) : Prop :=
  ∀ e ∈ g.edges, e.1 ∈ g.nodes ∧ e.2.1 ∈ g.nodes

/-- Every node of the relation graph is a key of the task–status map
(invariant 4 of the spec, §3). -/
def coherent (net : ENet) : Prop :=
  ∀ x ∈ net.data.relations.nodes, (mlookup net.data.tasks x).isSome = true

instance (g : Graph) : Decidable (wfGraph g) := by
  unfold wfGraph
  infer_instance

instance (net : ENet) : Decidable (coherent net) := by
  unfold coherent
  infer_instance

theorem minsert_isSome_pres (m : TaskMap) (k x : TaskId) (v : StatusId)
    (h : (mlookup m x).isSome = true) : (mlookup (minsert m k v) x).isSome = true := by
  by_cases hx : x = k
  · subst hx
    rw [mlookup_minsert_self]
    rfl
  · rw [mlookup_minsert_ne m k x v hx]
    exact h

theorem coherent_updStatus (net : ENet) (t : TaskId) (s : StatusId)
    (h : coherent net) : coherent (updStatus net t s) :=
  fun x hx => minsert_isSome_pres net.data.tasks t x s (h x hx)

theorem ictaGo_ok (net : ENet) (l : List Edge)
    (hs : ∀ e ∈ l, (mlookup net.data.tasks e.1).isSome = true) :
    ∀ acc, ∃ o, ictaGo net l acc = .ok o := by
  induction l with
  | nil => exact fun acc => ⟨if acc then some true else none, rfl⟩
  | cons e rest ih =>
    intro acc
    have he := hs e (List.mem_cons_self e rest)
    cases hlk : mlookup net.data.tasks e.1 with
    | none =>
      rw [hlk] at he
      exact absurd he (by simp)
    | some st =>
      unfold ictaGo
      rw [hlk]
      dsimp only
      split
      · exact ⟨some false, rfl⟩
      · exact ih (fun e' he' => hs e' (List.mem_cons_of_mem e he')) _

theorem inEdges_sources_present (net : ENet) (t : TaskId)
    (hwf : wfGraph net.data.relations) (hco : coherent net) :
    ∀ e ∈ inEdges net.data.relations t, (mlookup net.data.tasks e.1).isSome = true := by
  intro e he
  have hedge : e ∈ net.data.relations.edges := (List.mem_filter.mp he).1
  exact hco e.1 (hwf e hedge).1

theorem icta_ok (net : ENet) (t : TaskId)
    (hwf : wfGraph net.data.relations) (hco : coherent net) :
    ∃ o, is_controlled_task_accepted net t = .ok o :=
  ictaGo_ok net (inEdges net.data.relations t) (inEdges_sources_present net t hwf hco) false

theorem propagateLoop_ok (net : ENet) (l : List TaskId)
    (hwf : wfGraph net.data.relations) (hco : coherent net)
    (hl : ∀ x ∈ l, x ∈ net.data.relations.nodes) :
    (propagateLoop net l).2 = none := by
  induction l generalizing net with
  | nil => rfl
  | cons task rest ih =>
    unfold propagateLoop
    cases hic : is_controlled_task_accepted net task with
    | error e =>
      obtain ⟨o, ho⟩ := icta_ok net task hwf hco
      rw [hic] at ho
      exact Except.noConfusion ho
    | ok o =>
      cases o with
      | none => exact ih net hwf hco (fun x hx => hl x (List.mem_cons_of_mem task hx))
      | some acc =>
        cases hlk : mlookup net.data.tasks task with
        | none =>
          have := hco task (hl task (List.mem_cons_self task rest))
          rw [hlk] at this
          exact absurd this (by simp)
        | some stored =>
          dsimp only
          split
          · exact ih net hwf hco (fun x hx => hl x (List.mem_cons_of_mem task hx))
          · exact ih _ hwf (coherent_updStatus net task _ hco)
              (fun x hx => hl x (List.mem_cons_of_mem task hx))

theorem reach_of_edges_nil (g : Graph) (h : g.edges = []) (x y : TaskId)
    (hr : Reach g x y) : x = y := by
  induction hr with
  | refl => rfl
  | tail hxz hzy ih =>
    obtain ⟨ty, hty⟩ := hzy
    rw [h] at hty
    exact absurd hty (List.not_mem_nil _)

theorem noCycle_of_edges_nil (g : Graph) (h : g.edges = []) : noCycle g := by
  intro a b he
  obtain ⟨ty, hty⟩ := he
  rw [h] at hty
  exact absurd hty (List.not_mem_nil _)

theorem noCycle_of_single_edge (g : Graph) (a b : TaskId) (ty : RelationType)
    (hE : g.edges = [(a, b, ty)]) (hne : b ≠ a) : noCycle g := by
  intro x y he hr
  obtain ⟨ty', hty⟩ := he
  rw [hE] at hty
  have hx : x = a := congrArg (fun e : Edge => e.1) (List.mem_singleton.mp hty)
  have hy : y = b := congrArg (fun e : Edge => e.2.1) (List.mem_singleton.mp hty)
  rw [hx, hy] at hr
  rcases Relation.ReflTransGen.cases_tail hr with heq | ⟨c, _, hca⟩
  · exact hne heq.symm
  · obtain ⟨ty'', hty''⟩ := hca
    rw [hE] at hty''
    have hab : a = b := congrArg (fun e : Edge => e.2.1) (List.mem_singleton.mp hty'')
    exact hne hab.symm

/-- C5: on a net satisfying the spec's invariants (well-formed acyclic graph
whose nodes all have stored statuses), `change_task_status(tid, sid)` on an
uncontrolled task (no incoming edges) present in the map succeeds for every
status id `sid` — schema membership is never checked — and afterwards the
map sends `tid` to `sid`. -/
theorem c5_uncontrolled_change_succeeds (net : ENet) (tid : TaskId) (sid : StatusId)
    (hwf : wfGraph net.data.relations) (hnc : noCycle net.data.relations)
    (hco : coherent net) (hmem : (mlookup net.data.tasks tid).isSome = true)
    (hun : inEdges net.data.relations tid = []) :
    (change_task_status net tid sid).2 = none ∧
    mlookup (change_task_status net tid sid).1.data.tasks tid = some sid := by
  unfold change_task_status
  rw [icta_of_no_in net tid hun]
  cases hlk : mlookup net.data.tasks tid with
  | none =>
    rw [hlk] at hmem
    exact absurd hmem (by simp)
  | some stored =>
    dsimp only
    unfold propagate_from propagate
    cases htopo : topoSort (updStatus net tid sid).data.relations with
    | none =>
      exfalso
      have hsome := topoSort_isSome net.data.relations hnc
      have : topoSort net.data.relations = none := htopo
      rw [this] at hsome
      exact absurd hsome (by simp)
    | some l =>
      have hperm : l.Perm net.data.relations.nodes :=
        topoSort_perm net.data.relations l htopo
      dsimp only
      constructor
      · apply propagateLoop_ok
        · exact hwf
        · exact coherent_updStatus net tid sid hco
        · intro x hx
          have hxl : x ∈ l :=
            (List.dropWhile_sublist _).subset (List.drop_subset 1 _ hx)
          exact hperm.mem_iff.mp hxl
      · rw [propagateLoop_lookup_of_no_in (updStatus net tid sid)
            (List.drop 1 (List.dropWhile (fun x => decide (x ≠ tid)) l)) tid hun]
        exact mlookup_minsert_self net.data.tasks tid sid

/-- Witness for C5: on the one-task fresh net, the task's status may be set
to `7`, an id outside the schema. -/
theorem c5_witness :
    (change_task_status c8s1 10 7).2 = none ∧
    mlookup (change_task_status c8s1 10 7).1.data.tasks 10 = some 7 :=
  c5_uncontrolled_change_succeeds c8s1 10 7 (by decide)
    (noCycle_of_edges_nil c8s1.data.relations (by decide)) (by decide) (by decide) (by decide)

theorem ictaGo_none_char (net : ENet) (l : List Edge)
    (hpres : ∀ e ∈ l, (mlookup net.data.tasks e.1).isSome = true) :
    ∀ acc, ictaGo net l acc = .ok none ↔
      (acc = false ∧ ∀ e ∈ l,
        mlookup net.data.tasks e.1 = some net.data.schema.accepted ∧
        ¬ e.2.2 = RelationType.Compose) := by
  induction l with
  | nil =>
    intro acc
    constructor
    · intro h
      cases acc with
      | false => exact ⟨rfl, fun e he => absurd he (List.not_mem_nil e)⟩
      | true => exact absurd h (by simp [ictaGo])
    · rintro ⟨hacc, -⟩
      subst hacc
      rfl
  | cons e rest ih =>
    intro acc
    have he := hpres e (List.mem_cons_self e rest)
    cases hlk : mlookup net.data.tasks e.1 with
    | none =>
      rw [hlk] at he
      exact absurd he (by simp)
    | some st =>
      unfold ictaGo
      rw [hlk]
      dsimp only
      by_cases hst : st = net.data.schema.accepted
      · rw [if_neg (not_not_intro hst)]
        rw [ih (fun e' he' => hpres e' (List.mem_cons_of_mem e he'))
            (acc || decide (e.2.2 = RelationType.Compose))]
        constructor
        · rintro ⟨hor, hall⟩
          rcases Bool.or_eq_false_iff.mp hor with ⟨h1, h2⟩
          refine ⟨h1, ?_⟩
          intro e' he'
          rcases List.mem_cons.mp he' with heq | hmem
          · subst heq
            rw [hst] at hlk
            exact ⟨hlk, of_decide_eq_false h2⟩
          · exact hall e' hmem
        · rintro ⟨hacc, hall⟩
          have hcomp := (hall e (List.mem_cons_self e rest)).2
          refine ⟨?_, fun e' he' => hall e' (List.mem_cons_of_mem e he')⟩
          rw [hacc, decide_eq_false hcomp]
          rfl
      · rw [if_pos hst]
        constructor
        · intro h
          exact absurd (Except.ok.inj h) (by simp)
        · rintro ⟨-, hall⟩
          have h1 := (hall e (List.mem_cons_self e rest)).1
          rw [hlk] at h1
          exact absurd (Option.some.inj h1) hst

theorem icta_none_iff (net : ENet) (t : TaskId)
    (hwf : wfGraph net.data.relations) (hco : coherent net) :
    is_controlled_task_accepted net t = .ok none ↔
      (allParentsAccepted net t ∧ ¬ hasComposeIn net t) := by
  unfold is_controlled_task_accepted
  rw [ictaGo_none_char net _ (inEdges_sources_present net t hwf hco) false]
  constructor
  · rintro ⟨-, hall⟩
    refine ⟨fun e he => (hall e he).1, ?_⟩
    rintro ⟨e, he, hcomp⟩
    exact (hall e he).2 hcomp
  · rintro ⟨hall, hncomp⟩
    exact ⟨rfl, fun e he => ⟨hall e he, fun hcomp => hncomp ⟨e, he, hcomp⟩⟩⟩

/-- C1 amended: on a net satisfying the spec's invariants, for a task `tid`
with at least one incoming edge, `change_task_status(tid, sid)` fails with
`RelationConstraintNotSatisfied` **iff** some incoming source is not stored
as accepted or some incoming edge is a `Compose` edge; on that failure the
net is unchanged, and otherwise (all sources accepted, only `Require`
edges) the call succeeds.  The claim's "always fails" is refuted by the
counterexample. -/
theorem c1_controlled_change_characterization (net : ENet) (tid : TaskId) (sid : StatusId)
    (hwf : wfGraph net.data.relations) (hnc : noCycle net.data.relations)
    (hco : coherent net) (hin : inEdges net.data.relations tid ≠ []) :
    ((change_task_status net tid sid).2
        = some (.RelationConstraintNotSatisfied net.id tid)
      ↔ (blockedIn net tid ∨ hasComposeIn net tid)) ∧
    ((blockedIn net tid ∨ hasComposeIn net tid) →
      (change_task_status net tid sid).1 = net) ∧
    (¬ (blockedIn net tid ∨ hasComposeIn net tid) →
      (change_task_status net tid sid).2 = none) := by
  have hpres := inEdges_sources_present net tid hwf hco
  have hblocked_iff : blockedIn net tid ↔ ¬ allParentsAccepted net tid := by
    constructor
    · rintro ⟨e, he, hne⟩ hall
      exact hne (hall e he)
    · intro hnall
      by_contra hnb
      apply hnall
      intro e he
      by_contra hne
      exact hnb ⟨e, he, hne⟩
  obtain ⟨o, ho⟩ := icta_ok net tid hwf hco
  unfold change_task_status
  rw [ho]
  cases o with
  | none =>
    have hchar := (icta_none_iff net tid hwf hco).mp ho
    have hrhsf : ¬ (blockedIn net tid ∨ hasComposeIn net tid) := by
      rintro (hb | hc)
      · exact (hblocked_iff.mp hb) hchar.1
      · exact hchar.2 hc
    obtain ⟨e, he⟩ := List.exists_mem_of_ne_nil _ hin
    have htid_node : tid ∈ net.data.relations.nodes := by
      have h1 : e ∈ net.data.relations.edges := (List.mem_filter.mp he).1
      have h2 : e.2.1 = tid := by simpa using (List.mem_filter.mp he).2
      exact h2 ▸ (hwf e h1).2
    have hmem := hco tid htid_node
    cases hlk : mlookup net.data.tasks tid with
    | none =>
      rw [hlk] at hmem
      exact absurd hmem (by simp)
    | some stored =>
      dsimp only
      have hsucc2 : (propagate_from (updStatus net tid sid) tid).2 = none := by
        unfold propagate_from propagate
        cases htopo : topoSort (updStatus net tid sid).data.relations with
        | none =>
          have hsome := topoSort_isSome net.data.relations hnc
          have h0 : topoSort net.data.relations = none := htopo
          rw [h0] at hsome
          exact absurd hsome (by simp)
        | some l =>
          dsimp only
          apply propagateLoop_ok
          · exact hwf
          · exact coherent_updStatus net tid sid hco
          · intro x hx
            exact (topoSort_perm net.data.relations l htopo).mem_iff.mp
              ((List.dropWhile_sublist _).subset (List.drop_subset 1 _ hx))
      refine ⟨?_, ?_, ?_⟩
      · rw [hsucc2]
        constructor
        · intro hh
          exact absurd hh (by simp)
        · intro hh
          exact absurd hh hrhsf
      · intro hh
        exact absurd hh hrhsf
      · intro _
        exact hsucc2
  | some b =>
    have hrhst : blockedIn net tid ∨ hasComposeIn net tid := by
      by_contra hnot
      obtain ⟨hnb, hncomp⟩ := not_or.mp hnot
      have hall : allParentsAccepted net tid := by
        intro e he
        by_contra hne
        exact hnb ⟨e, he, hne⟩
      have := (icta_none_iff net tid hwf hco).mpr ⟨hall, hncomp⟩
      rw [ho] at this
      exact Option.noConfusion (Except.ok.inj this)
    exact ⟨⟨fun _ => hrhst, fun _ => rfl⟩, fun _ => rfl, fun hh => absurd hrhst hh⟩

/-- Witness for C1's amended theorem: in S2 before `t1` is accepted, the
call on controlled task `11` is rejected with
`RelationConstraintNotSatisfied` (its source `10` is unaccepted). -/
theorem c1_witness :
    (change_task_status s2s3 11 1).2
      = some (.RelationConstraintNotSatisfied s2s3.id 11) :=
  ((c1_controlled_change_characterization s2s3 11 1 (by decide)
      (noCycle_of_single_edge s2s3.data.relations 10 11 RelationType.Require
        (by decide) (by decide))
      (by decide) (by decide)).1).mpr (Or.inl (by decide))

/-! ### C2: the propagation-consistency invariant -/

/-- Local propagation consistency at task `t`: a stored task with a
non-accepted (or absent) incoming source is not stored as accepted; a
stored task with a `Compose` incoming edge whose sources are all stored as
accepted is stored as accepted; a task that is a dangling edge target
(node but no map entry) has only `Require` incoming edges from accepted
sources. -/
def consAt (net : ENet) (t : TaskId) : Prop :=
  (∀ s, mlookup net.data.tasks t = some s →
    (blockedIn net t → s ≠ net.data.schema.accepted) ∧
    (hasComposeIn net t → allParentsAccepted net t → s = net.data.schema.accepted)) ∧
  (mlookup net.data.tasks t = none →
    ∀ e ∈ inEdges net.data.relations t,
      e.2.2 = RelationType.Require ∧
      mlookup net.data.tasks e.1 = some net.data.schema.accepted)

/-- The inductive invariant for the propagation-consistency claim: default
and accepted distinct, a well-formed acyclic graph with distinct nodes,
and local consistency everywhere. -/
def NetFix (net : ENet) : Prop :=
  net.data.schema.default ≠ net.data.schema.accepted ∧
  wfGraph net.data.relations ∧
  noCycle net.data.relations ∧
  net.data.relations.nodes.Nodup ∧
  ∀ t, consAt net t

theorem consAt_of_no_in (net : ENet) (t : TaskId)
    (h : inEdges net.data.relations t = []) : consAt net t := by
  constructor
  · intro s hs
    constructor
    · rintro ⟨e, he, -⟩
      rw [h] at he
      exact absurd he (List.not_mem_nil e)
    · rintro ⟨e, he, -⟩
      rw [h] at he
      exact absurd he (List.not_mem_nil e)
  · intro _ e he
    rw [h] at he
    exact absurd he (List.not_mem_nil e)

theorem consAt_transfer (S S' : ENet) (t : TaskId)
    (hacc : S'.data.schema.accepted = S.data.schema.accepted)
    (hin : inEdges S'.data.relations t = inEdges S.data.relations t)
    (hl : mlookup S'.data.tasks t = mlookup S.data.tasks t)
    (hsrc : ∀ e ∈ inEdges S.data.relations t,
      mlookup S'.data.tasks e.1 = mlookup S.data.tasks e.1)
    (h : consAt S t) : consAt S' t := by
  have hblock : blockedIn S' t ↔ blockedIn S t := by
    unfold blockedIn
    rw [hin, hacc]
    constructor
    · rintro ⟨e, he, hne⟩
      exact ⟨e, he, by rw [← hsrc e he]; exact hne⟩
    · rintro ⟨e, he, hne⟩
      exact ⟨e, he, by rw [hsrc e he]; exact hne⟩
  have hcomp : hasComposeIn S' t ↔ hasComposeIn S t := by
    unfold hasComposeIn
    rw [hin]
  have hall : allParentsAccepted S' t ↔ allParentsAccepted S t := by
    unfold allParentsAccepted
    rw [hin, hacc]
    constructor
    · intro ha e he
      rw [← hsrc e he]
      exact ha e he
    · intro ha e he
      rw [hsrc e he]
      exact ha e he
  constructor
  · intro s hs
    rw [hl] at hs
    refine ⟨?_, ?_⟩
    · intro hb
      rw [hacc]
      exact (h.1 s hs).1 (hblock.mp hb)
    · intro hc ha
      rw [hacc]
      exact (h.1 s hs).2 (hcomp.mp hc) (hall.mp ha)
  · intro hnone e he
    rw [hl] at hnone
    rw [hin] at he
    refine ⟨(h.2 hnone e he).1, ?_⟩
    rw [hsrc e he, hacc]
    exact (h.2 hnone e he).2

theorem ictaGo_none_strong (net : ENet) (l : List Edge) (acc : Bool)
    (h : ictaGo net l acc = .ok none) :
    acc = false ∧ ∀ e ∈ l,
      mlookup net.data.tasks e.1 = some net.data.schema.accepted ∧
      ¬ e.2.2 = RelationType.Compose := by
  induction l generalizing acc with
  | nil =>
    cases acc with
    | false => exact ⟨rfl, fun e he => absurd he (List.not_mem_nil e)⟩
    | true => exact absurd h (by simp [ictaGo])
  | cons e rest ih =>
    unfold ictaGo at h
    cases hlk : mlookup net.data.tasks e.1 with
    | none =>
      rw [hlk] at h
      exact Except.noConfusion h
    | some st =>
      rw [hlk] at h
      dsimp only at h
      by_cases hst : st = net.data.schema.accepted
      · rw [if_neg (not_not_intro hst)] at h
        obtain ⟨hor, hall⟩ := ih _ h
        rcases Bool.or_eq_false_iff.mp hor with ⟨h1, h2⟩
        refine ⟨h1, ?_⟩
        intro e' he'
        rcases List.mem_cons.mp he' with heq | hmem
        · subst heq
          rw [hst] at hlk
          exact ⟨hlk, of_decide_eq_false h2⟩
        · exact hall e' hmem
      · rw [if_pos hst] at h
        exact absurd (Except.ok.inj h) (by simp)

theorem ictaGo_some_true_strong (net : ENet) (l : List Edge) (acc : Bool)
    (h : ictaGo net l acc = .ok (some true)) :
    ∀ e ∈ l, mlookup net.data.tasks e.1 = some net.data.schema.accepted := by
  induction l generalizing acc with
  | nil => exact fun e he => absurd he (List.not_mem_nil e)
  | cons e rest ih =>
    unfold ictaGo at h
    cases hlk : mlookup net.data.tasks e.1 with
    | none =>
      rw [hlk] at h
      exact Except.noConfusion h
    | some st =>
      rw [hlk] at h
      dsimp only at h
      by_cases hst : st = net.data.schema.accepted
      · rw [if_neg (not_not_intro hst)] at h
        intro e' he'
        rcases List.mem_cons.mp he' with heq | hmem
        · subst heq
          rw [hst] at hlk
          exact hlk
        · exact ih _ h e' hmem
      · rw [if_pos hst] at h
        exact absurd (Except.ok.inj h) (by simp)

theorem ictaGo_some_false_strong (net : ENet) (l : List Edge) (acc : Bool)
    (h : ictaGo net l acc = .ok (some false)) :
    ∃ e ∈ l, ∃ st, mlookup net.data.tasks e.1 = some st ∧
      st ≠ net.data.schema.accepted := by
  induction l generalizing acc with
  | nil =>
    cases acc with
    | false => exact absurd (Except.ok.inj h) (by simp [ictaGo] at h ⊢)
    | true => exact absurd (Except.ok.inj h) (by simp [ictaGo] at h ⊢)
  | cons e rest ih =>
    unfold ictaGo at h
    cases hlk : mlookup net.data.tasks e.1 with
    | none =>
      rw [hlk] at h
      exact Except.noConfusion h
    | some st =>
      rw [hlk] at h
      dsimp only at h
      by_cases hst : st = net.data.schema.accepted
      · rw [if_neg (not_not_intro hst)] at h
        obtain ⟨e', he', st', hst'⟩ := ih _ h
        exact ⟨e', List.mem_cons_of_mem e he', st', hst'⟩
      · rw [if_pos hst] at h
        exact ⟨e, List.mem_cons_self e rest, st, hlk, hst⟩

theorem noSelf_of_noCycle (g : Graph) (hnc : noCycle g) :
    ∀ t ty, (t, t, ty) ∉ g.edges :=
  fun t ty h => hnc t t ⟨ty, h⟩ Relation.ReflTransGen.refl

theorem dropWhile_decomp (l : List TaskId) (t : TaskId) (h : t ∈ l) :
    ∃ P0 rest, l = P0 ++ t :: rest ∧ (∀ x ∈ P0, x ≠ t) ∧
      l.dropWhile (fun x => decide (x ≠ t)) = t :: rest := by
  induction l with
  | nil => exact absurd h (List.not_mem_nil t)
  | cons a l' ih =>
    by_cases ha : a = t
    · subst ha
      refine ⟨[], l', rfl, fun x hx => absurd hx (List.not_mem_nil x), ?_⟩
      rw [List.dropWhile_cons]
      rw [if_neg (by simp)]
    · have ht' : t ∈ l' := by
        rcases List.mem_cons.mp h with heq | hm
        · exact absurd heq.symm ha
        · exact hm
      obtain ⟨P0, rest, heq, hne, hdrop⟩ := ih ht'
      refine ⟨a :: P0, rest, by rw [List.cons_append, heq], ?_, ?_⟩
      · intro x hx
        rcases List.mem_cons.mp hx with h1 | h1
        · exact h1 ▸ ha
        · exact hne x h1
      · rw [List.dropWhile_cons, if_pos (by simp [ha]), hdrop]

theorem dropWhile_nil_of_not_mem (l : List TaskId) (t : TaskId) (h : t ∉ l) :
    l.dropWhile (fun x => decide (x ≠ t)) = [] := by
  induction l with
  | nil => rfl
  | cons a l' ih =>
    have ha : a ≠ t := fun heq => h (heq ▸ List.mem_cons_self a l')
    rw [List.dropWhile_cons, if_pos (by simp [ha])]
    exact ih (fun hm => h (List.mem_cons_of_mem a hm))

theorem propagateLoop_window (W : List TaskId) :
    ∀ (S : ENet) (P : List TaskId),
    S.data.schema.default ≠ S.data.schema.accepted →
    (P ++ W).Pairwise (fun x y => ∀ ty, (y, x, ty) ∉ S.data.relations.edges) →
    (P ++ W).Nodup →
    (∀ e ∈ S.data.relations.edges, e.1 ∈ P ++ W ∧ e.2.1 ∈ P ++ W) →
    (∀ t ty, (t, t, ty) ∉ S.data.relations.edges) →
    (∀ t ∈ P, consAt S t) →
    (propagateLoop S W).2 = none →
    ∀ t, consAt (propagateLoop S W).1 t := by
  induction W with
  | nil =>
    intro S P H1 H2 H3 H4 H6 H5 Hok t
    by_cases ht : t ∈ P
    · exact H5 t ht
    · refine consAt_of_no_in S t ?_
      by_contra hne
      obtain ⟨e, he⟩ := List.exists_mem_of_ne_nil _ hne
      have h1 : e ∈ S.data.relations.edges := (List.mem_filter.mp he).1
      have h2 : e.2.1 = t := by simpa using (List.mem_filter.mp he).2
      have h3 := (H4 e h1).2
      rw [h2, List.append_nil] at h3
      exact ht h3
  | cons w W' ih =>
    intro S P H1 H2 H3 H4 H6 H5 Hok t
    have hassoc : P ++ w :: W' = (P ++ [w]) ++ W' := by simp
    have hdisj : P.Disjoint (w :: W') := (List.nodup_append.mp H3).2.2
    have hxw : ∀ x ∈ P, x ≠ w := by
      intro x hx heq
      subst heq
      exact hdisj hx (List.mem_cons_self x W')
    have hcross := (List.pairwise_append.mp H2).2.2
    have hsrcP : ∀ x ∈ P, ∀ e ∈ inEdges S.data.relations x, e.1 ≠ w := by
      intro x hx e he heq
      have h1 : e ∈ S.data.relations.edges := (List.mem_filter.mp he).1
      have h2 : e.2.1 = x := by simpa using (List.mem_filter.mp he).2
      obtain ⟨a, b, ty⟩ := e
      have ha : a = w := heq
      have hb : b = x := h2
      subst ha
      subst hb
      exact hcross b hx a (List.mem_cons_self a W') ty h1
    have hsrcw : ∀ e ∈ inEdges S.data.relations w, e.1 ≠ w := by
      intro e he heq
      have h1 : e ∈ S.data.relations.edges := (List.mem_filter.mp he).1
      have h2 : e.2.1 = w := by simpa using (List.mem_filter.mp he).2
      obtain ⟨a, b, ty⟩ := e
      have ha : a = w := heq
      have hb : b = w := h2
      subst ha
      rw [hb] at h1
      exact H6 a ty h1
    unfold propagateLoop at Hok ⊢
    cases hic : is_controlled_task_accepted S w with
    | error e =>
      rw [hic] at Hok
      exact absurd Hok (by simp)
    | ok o =>
      rw [hic] at Hok
      cases o with
      | none =>
        have hstrong := ictaGo_none_strong S (inEdges S.data.relations w) false hic
        have hconsw : consAt S w := by
          refine ⟨fun s hs => ⟨?_, ?_⟩, ?_⟩
          · rintro ⟨e, he, hne⟩
            exact (hne (hstrong.2 e he).1).elim
          · rintro ⟨e, he, hcomp⟩ _
            exact ((hstrong.2 e he).2 hcomp).elim
          · intro _ e he
            refine ⟨?_, (hstrong.2 e he).1⟩
            cases hty : e.2.2 with
            | Require => rfl
            | Compose => exact absurd hty (hstrong.2 e he).2
        refine ih S (P ++ [w]) H1 (hassoc ▸ H2) (hassoc ▸ H3)
          (fun e he => hassoc ▸ H4 e he) H6 ?_ Hok t
        intro x hx
        rcases List.mem_append.mp hx with h1 | h1
        · exact H5 x h1
        · rw [List.mem_singleton.mp h1]
          exact hconsw
      | some acc =>
        cases hlk : mlookup S.data.tasks w with
        | none =>
          rw [hlk] at Hok
          exact absurd Hok (by simp)
        | some stored =>
          rw [hlk] at Hok
          dsimp only at Hok ⊢
          by_cases hcond : acc = decide (stored = S.data.schema.accepted)
          · rw [if_pos hcond] at Hok ⊢
            have hconsw : consAt S w := by
              cases acc with
              | true =>
                have hstacc : stored = S.data.schema.accepted :=
                  of_decide_eq_true hcond.symm
                have hstrong := ictaGo_some_true_strong S _ false hic
                refine ⟨fun s hs => ⟨?_, ?_⟩, ?_⟩
                · rintro ⟨e, he, hne⟩
                  exact (hne (hstrong e he)).elim
                · intro _ _
                  rw [hlk] at hs
                  rw [← Option.some.inj hs]
                  exact hstacc
                · intro hnone
                  rw [hlk] at hnone
                  exact Option.noConfusion hnone
              | false =>
                have hstacc : ¬ stored = S.data.schema.accepted :=
                  of_decide_eq_false hcond.symm
                obtain ⟨e0, he0, st0, hlk0, hst0⟩ :=
                  ictaGo_some_false_strong S _ false hic
                refine ⟨fun s hs => ⟨?_, ?_⟩, ?_⟩
                · intro _
                  rw [hlk] at hs
                  rw [← Option.some.inj hs]
                  exact hstacc
                · rintro _ hall
                  have h1 := hall e0 he0
                  rw [hlk0] at h1
                  exact ((hst0 (Option.some.inj h1))).elim
                · intro hnone
                  rw [hlk] at hnone
                  exact Option.noConfusion hnone
            refine ih S (P ++ [w]) H1 (hassoc ▸ H2) (hassoc ▸ H3)
              (fun e he => hassoc ▸ H4 e he) H6 ?_ Hok t
            intro x hx
            rcases List.mem_append.mp hx with h1 | h1
            · exact H5 x h1
            · rw [List.mem_singleton.mp h1]
              exact hconsw
          · rw [if_neg hcond] at Hok ⊢
            cases acc with
            | true =>
              rw [if_pos rfl] at Hok ⊢
              have hstrong := ictaGo_some_true_strong S _ false hic
              refine ih (updStatus S w S.data.schema.accepted) (P ++ [w]) H1
                (hassoc ▸ H2) (hassoc ▸ H3) (fun e he => hassoc ▸ H4 e he) H6 ?_ Hok t
              intro x hx
              rcases List.mem_append.mp hx with h1 | h1
              · refine consAt_transfer S (updStatus S w S.data.schema.accepted) x rfl rfl
                  (mlookup_minsert_ne _ w x _ (hxw x h1)) ?_ (H5 x h1)
                intro e he
                exact mlookup_minsert_ne _ w e.1 _ (hsrcP x h1 e he)
              · rw [List.mem_singleton.mp h1]
                refine ⟨fun s hs => ⟨?_, ?_⟩, ?_⟩
                · rintro ⟨e, he, hne⟩
                  replace he : e ∈ inEdges S.data.relations w := he
                  have := hstrong e he
                  rw [← mlookup_minsert_ne S.data.tasks w e.1
                      S.data.schema.accepted (hsrcw e he)] at this
                  exact (hne this).elim
                · intro _ _
                  have h1 : mlookup (updStatus S w S.data.schema.accepted).data.tasks w
                      = some S.data.schema.accepted := mlookup_minsert_self _ _ _
                  rw [h1] at hs
                  exact (Option.some.inj hs).symm
                · intro hnone
                  have hnone' : mlookup (minsert S.data.tasks w S.data.schema.accepted) w
                      = none := hnone
                  rw [mlookup_minsert_self] at hnone'
                  exact Option.noConfusion hnone'
            | false =>
              rw [if_neg (by simp)] at Hok ⊢
              obtain ⟨e0, he0, st0, hlk0, hst0⟩ :=
                ictaGo_some_false_strong S _ false hic
              refine ih (updStatus S w S.data.schema.default) (P ++ [w]) H1
                (hassoc ▸ H2) (hassoc ▸ H3) (fun e he => hassoc ▸ H4 e he) H6 ?_ Hok t
              intro x hx
              rcases List.mem_append.mp hx with h1 | h1
              · refine consAt_transfer S (updStatus S w S.data.schema.default) x rfl rfl
                  (mlookup_minsert_ne _ w x _ (hxw x h1)) ?_ (H5 x h1)
                intro e he
                exact mlookup_minsert_ne _ w e.1 _ (hsrcP x h1 e he)
              · rw [List.mem_singleton.mp h1]
                refine ⟨fun s hs => ⟨?_, ?_⟩, ?_⟩
                · intro _
                  have h1 : mlookup (updStatus S w S.data.schema.default).data.tasks w
                      = some S.data.schema.default := mlookup_minsert_self _ _ _
                  rw [h1] at hs
                  rw [← Option.some.inj hs]
                  exact H1
                · rintro _ hall
                  replace he0 : e0 ∈ inEdges S.data.relations w := he0
                  have h1 : mlookup (minsert S.data.tasks w S.data.schema.default) e0.1
                      = some S.data.schema.accepted := hall e0 he0
                  rw [mlookup_minsert_ne S.data.tasks w e0.1
                      S.data.schema.default (hsrcw e0 he0), hlk0] at h1
                  exact ((hst0 (Option.some.inj h1))).elim
                · intro hnone
                  have hnone' : mlookup (minsert S.data.tasks w S.data.schema.default) w
                      = none := hnone
                  rw [mlookup_minsert_self] at hnone'
                  exact Option.noConfusion hnone'

theorem propagate_preserves (E : ENet) (f : List TaskId → List TaskId)
    (H1 : E.data.schema.default ≠ E.data.schema.accepted)
    (Hwf : wfGraph E.data.relations)
    (Hnc : noCycle E.data.relations)
    (Hnodup : E.data.relations.nodes.Nodup)
    (hf : ∀ l, topoSort E.data.relations = some l →
      ∃ P, l = P ++ f l ∧ ∀ t ∈ P, consAt E t)
    (Hok : (propagate E f).2 = none) :
    NetFix (propagate E f).1 := by
  unfold propagate at Hok ⊢
  cases htopo : topoSort E.data.relations with
  | none =>
    have hsome := topoSort_isSome E.data.relations Hnc
    rw [htopo] at hsome
    exact absurd hsome (by simp)
  | some l =>
    rw [htopo] at Hok
    dsimp only at Hok ⊢
    obtain ⟨P, hPl, hP⟩ := hf l htopo
    have hframe := propagateLoop_frame E (f l)
    have hcons : ∀ t, consAt (propagateLoop E (f l)).1 t := by
      refine propagateLoop_window (f l) E P H1 ?_ ?_ ?_ ?_ hP Hok
      · rw [← hPl]
        exact topoSort_pairwise E.data.relations l htopo
      · rw [← hPl]
        exact (topoSort_perm E.data.relations l htopo).nodup_iff.mpr Hnodup
      · intro e he
        rw [← hPl]
        constructor
        · exact (topoSort_perm E.data.relations l htopo).mem_iff.mpr (Hwf e he).1
        · exact (topoSort_perm E.data.relations l htopo).mem_iff.mpr (Hwf e he).2
      · exact noSelf_of_noCycle E.data.relations Hnc
    refine ⟨?_, ?_, ?_, ?_, hcons⟩
    · rw [hframe.2.1]
      exact H1
    · rw [hframe.1]
      exact Hwf
    · rw [hframe.1]
      exact Hnc
    · rw [hframe.1]
      exact Hnodup

theorem addNode_nodes_mem (g : Graph) (n x : TaskId) (h : x ∈ g.nodes) :
    x ∈ (addNode g n).nodes := by
  unfold addNode
  split
  · exact h
  · exact List.mem_append_left _ h

theorem mem_addNode_self (g : Graph) (n : TaskId) : n ∈ (addNode g n).nodes := by
  unfold addNode
  split
  · assumption
  · exact List.mem_append_right _ (List.mem_singleton.mpr rfl)

theorem addNode_nodup (g : Graph) (n : TaskId) (h : g.nodes.Nodup) :
    (addNode g n).nodes.Nodup := by
  unfold addNode
  split
  · exact h
  · rename_i hnot
    refine List.nodup_append.mpr ⟨h, List.nodup_singleton n, ?_⟩
    intro a ha hb
    rw [List.mem_singleton.mp hb] at ha
    exact hnot ha

theorem addEdge_nodes (g : Graph) (a b : TaskId) (ty : RelationType) :
    (addEdge g a b ty).nodes = (addNode (addNode g a) b).nodes := by
  unfold addEdge
  dsimp only
  split <;> rfl

theorem wf_addNode (g : Graph) (n : TaskId) (h : wfGraph g) : wfGraph (addNode g n) := by
  intro e he
  rw [addNode_edges] at he
  exact ⟨addNode_nodes_mem g n _ (h e he).1, addNode_nodes_mem g n _ (h e he).2⟩

theorem wf_addEdge (g : Graph) (a b : TaskId) (ty : RelationType) (h : wfGraph g) :
    wfGraph (addEdge g a b ty) := by
  intro e he
  rw [addEdge_nodes]
  rcases addEdge_mem_edges g a b ty e he with h' | h'
  · exact ⟨addNode_nodes_mem _ b _ (addNode_nodes_mem _ a _ (h e h').1),
      addNode_nodes_mem _ b _ (addNode_nodes_mem _ a _ (h e h').2)⟩
  · subst h'
    exact ⟨addNode_nodes_mem _ b _ (mem_addNode_self g a), mem_addNode_self _ b⟩

theorem addEdge_nodup (g : Graph) (a b : TaskId) (ty : RelationType)
    (h : g.nodes.Nodup) : (addEdge g a b ty).nodes.Nodup := by
  rw [addEdge_nodes]
  exact addNode_nodup _ b (addNode_nodup g a h)

theorem wf_removeNode (g : Graph) (n : TaskId) (h : wfGraph g) :
    wfGraph (removeNode g n) := by
  intro e he
  rcases List.mem_filter.mp he with ⟨h1, h2⟩
  have h3 : e.1 ≠ n ∧ e.2.1 ≠ n := by simpa using h2
  exact ⟨List.mem_filter.mpr ⟨(h e h1).1, by simpa using h3.1⟩,
    List.mem_filter.mpr ⟨(h e h1).2, by simpa using h3.2⟩⟩

theorem removeNode_nodup (g : Graph) (n : TaskId) (h : g.nodes.Nodup) :
    (removeNode g n).nodes.Nodup :=
  h.filter _

theorem wf_removeEdge (g : Graph) (a b : TaskId) (h : wfGraph g) :
    wfGraph (removeEdge g a b) := by
  intro e he
  exact h e (List.mem_filter.mp he).1

theorem inEdges_addNode (g : Graph) (n t : TaskId) :
    inEdges (addNode g n) t = inEdges g t := by
  unfold inEdges
  rw [addNode_edges]

theorem inEdges_addEdge_ne (g : Graph) (a b : TaskId) (ty : RelationType)
    (t : TaskId) (h : t ≠ b) : inEdges (addEdge g a b ty) t = inEdges g t := by
  unfold addEdge
  dsimp only
  split
  · unfold inEdges
    dsimp only
    rw [addNode_edges, addNode_edges]
    induction g.edges with
    | nil => rfl
    | cons e0 rest ih =>
      rw [List.map_cons, List.filter_cons, List.filter_cons]
      by_cases hc : e0.1 = a ∧ e0.2.1 = b
      · rw [if_pos hc]
        rw [show (decide (((a, b, ty) : Edge).2.1 = t)) = false from
          decide_eq_false (fun hh => h (hh.symm))]
        rw [show (decide (e0.2.1 = t)) = false from
          decide_eq_false (fun hh => h (hc.2 ▸ hh).symm)]
        exact ih
      · rw [if_neg hc]
        split
        · rw [ih]
        · exact ih
  · unfold inEdges
    dsimp only
    rw [addNode_edges, addNode_edges, List.filter_append]
    rw [show ([(a, b, ty)] : List Edge).filter (fun e => decide (e.2.1 = t)) = [] from by
      simp [Ne.symm h]]
    rw [List.append_nil]

theorem inEdges_removeEdge_ne (g : Graph) (a b t : TaskId) (h : t ≠ b) :
    inEdges (removeEdge g a b) t = inEdges g t := by
  unfold removeEdge inEdges
  dsimp only
  induction g.edges with
  | nil => rfl
  | cons e0 rest ih =>
    rw [List.filter_cons]
    by_cases hc : e0.1 = a ∧ e0.2.1 = b
    · rw [show (decide (¬(e0.1 = a ∧ e0.2.1 = b))) = false from
        decide_eq_false (not_not_intro hc)]
      rw [List.filter_cons, show (decide (e0.2.1 = t)) = false from
        decide_eq_false (fun hh => h (hc.2 ▸ hh).symm)]
      simpa using ih
    · rw [show (decide (¬(e0.1 = a ∧ e0.2.1 = b))) = true from decide_eq_true hc]
      rw [if_pos rfl, List.filter_cons, List.filter_cons]
      split
      · rw [ih]
      · exact ih

theorem consAt_accpres (S S' : ENet) (t : TaskId)
    (hacc : S'.data.schema.accepted = S.data.schema.accepted)
    (hin : inEdges S'.data.relations t = inEdges S.data.relations t)
    (hl : mlookup S'.data.tasks t = mlookup S.data.tasks t)
    (hse : ∀ e ∈ inEdges S.data.relations t,
      (mlookup S'.data.tasks e.1 = some S'.data.schema.accepted ↔
        mlookup S.data.tasks e.1 = some S.data.schema.accepted))
    (h : consAt S t) : consAt S' t := by
  have hblock : blockedIn S' t ↔ blockedIn S t := by
    unfold blockedIn
    rw [hin]
    constructor
    · rintro ⟨e, he, hne⟩
      exact ⟨e, he, fun hcc => hne ((hse e he).mpr hcc)⟩
    · rintro ⟨e, he, hne⟩
      exact ⟨e, he, fun hcc => hne ((hse e he).mp hcc)⟩
  have hcomp : hasComposeIn S' t ↔ hasComposeIn S t := by
    unfold hasComposeIn
    rw [hin]
  have hall : allParentsAccepted S' t ↔ allParentsAccepted S t := by
    unfold allParentsAccepted
    rw [hin]
    constructor
    · intro ha e he
      exact (hse e he).mp (ha e he)
    · intro ha e he
      exact (hse e he).mpr (ha e he)
  constructor
  · intro s hs
    rw [hl] at hs
    refine ⟨?_, ?_⟩
    · intro hb
      rw [hacc]
      exact (h.1 s hs).1 (hblock.mp hb)
    · intro hc ha
      rw [hacc]
      exact (h.1 s hs).2 (hcomp.mp hc) (hall.mp ha)
  · intro hnone e he
    rw [hl] at hnone
    rw [hin] at he
    exact ⟨(h.2 hnone e he).1, (hse e he).mpr (h.2 hnone e he).2⟩

theorem consAt_mapValues (S S' : ENet) (f : StatusId → StatusId) (t : TaskId)
    (hgr : S'.data.relations = S.data.relations)
    (hacc : S'.data.schema.accepted = S.data.schema.accepted)
    (htasks : S'.data.tasks = mapValues S.data.tasks f)
    (hfacc : ∀ v, f v = S.data.schema.accepted ↔ v = S.data.schema.accepted)
    (h : consAt S t) : consAt S' t := by
  have hlk : ∀ x, mlookup S'.data.tasks x = (mlookup S.data.tasks x).map f := by
    intro x
    rw [htasks, mlookup_mapValues]
  have hsrcacc : ∀ x, (mlookup S'.data.tasks x = some S'.data.schema.accepted ↔
      mlookup S.data.tasks x = some S.data.schema.accepted) := by
    intro x
    rw [hlk, hacc]
    cases hx : mlookup S.data.tasks x with
    | none => simp
    | some v =>
      simp only [Option.map_some', Option.some_inj]
      exact hfacc v
  have hblock : blockedIn S' t ↔ blockedIn S t := by
    unfold blockedIn
    rw [hgr]
    constructor
    · rintro ⟨e, he, hne⟩
      exact ⟨e, he, fun hcc => hne ((hsrcacc e.1).mpr hcc)⟩
    · rintro ⟨e, he, hne⟩
      exact ⟨e, he, fun hcc => hne ((hsrcacc e.1).mp hcc)⟩
  have hcompiff : hasComposeIn S' t ↔ hasComposeIn S t := by
    unfold hasComposeIn
    rw [hgr]
  have hall : allParentsAccepted S' t ↔ allParentsAccepted S t := by
    unfold allParentsAccepted
    rw [hgr]
    constructor
    · intro ha e he
      exact (hsrcacc e.1).mp (ha e he)
    · intro ha e he
      exact (hsrcacc e.1).mpr (ha e he)
  constructor
  · intro s hs
    rw [hlk t] at hs
    rcases Option.map_eq_some'.mp hs with ⟨s0, hs0, hfs⟩
    have h0 := h.1 s0 hs0
    constructor
    · intro hb heq
      rw [← hfs, hacc] at heq
      exact h0.1 (hblock.mp hb) ((hfacc s0).mp heq)
    · intro hc ha
      have hs0acc := h0.2 (hcompiff.mp hc) (hall.mp ha)
      rw [← hfs, hacc]
      exact (hfacc s0).mpr hs0acc
  · intro hnone e he
    have h0none : mlookup S.data.tasks t = none := by
      rw [hlk t] at hnone
      cases hx : mlookup S.data.tasks t with
      | none => rfl
      | some v =>
        rw [hx] at hnone
        exact Option.noConfusion hnone
    rw [hgr] at he
    exact ⟨(h.2 h0none e he).1, (hsrcacc e.1).mpr (h.2 h0none e he).2⟩

theorem NetFix_new_status (net net' : ENet) (sid : StatusId) (nm : String)
    (h : NetFix net) (hsucc : new_status net sid nm = (net', none)) : NetFix net' := by
  have h1 := congrArg Prod.fst hsucc
  dsimp only [new_status] at h1
  subst h1
  exact ⟨h.1, h.2.1, h.2.2.1, h.2.2.2.1,
    fun t => consAt_accpres _ net t rfl rfl rfl (fun e _ => Iff.rfl) (h.2.2.2.2 t)⟩

theorem NetFix_change_status_name (net net' : ENet) (sid : StatusId) (nm : String)
    (h : NetFix net) (hsucc : change_status_name net sid nm = (net', none)) :
    NetFix net' := by
  unfold change_status_name at hsucc
  by_cases hc : net.data.schema.status.any (fun p => decide (p.1 = sid)) = true
  · rw [if_pos hc] at hsucc
    have h1 := congrArg Prod.fst hsucc
    dsimp only at h1
    subst h1
    exact ⟨h.1, h.2.1, h.2.2.1, h.2.2.2.1,
      fun t => consAt_accpres _ net t rfl rfl rfl (fun e _ => Iff.rfl) (h.2.2.2.2 t)⟩
  · rw [if_neg hc] at hsucc
    exact absurd (congrArg Prod.snd hsucc) (by simp)

theorem NetFix_remove_status (net net' : ENet) (sid : StatusId)
    (h : NetFix net) (hsucc : remove_status net sid = (net', none)) : NetFix net' := by
  unfold remove_status at hsucc
  by_cases h1 : ¬ (net.data.schema.status.any (fun p => decide (p.1 = sid)) = true)
  · rw [if_pos h1] at hsucc
    exact absurd (congrArg Prod.snd hsucc) (by simp)
  · rw [if_neg h1] at hsucc
    by_cases h2 : sid = net.data.schema.default ∨ sid = net.data.schema.accepted
    · rw [if_pos h2] at hsucc
      exact absurd (congrArg Prod.snd hsucc) (by simp)
    · rw [if_neg h2] at hsucc
      have hE := congrArg Prod.fst hsucc
      dsimp only at hE
      subst hE
      push_neg at h2
      refine ⟨h.1, h.2.1, h.2.2.1, h.2.2.2.1, fun t => ?_⟩
      refine consAt_mapValues net _
        (fun v => if v = sid then net.data.schema.default else v) t rfl rfl rfl ?_
        (h.2.2.2.2 t)
      intro v
      constructor
      · intro hv
        dsimp only at hv
        by_cases hvs : v = sid
        · rw [if_pos hvs] at hv
          exact absurd hv h.1
        · rw [if_neg hvs] at hv
          exact hv
      · intro hv
        have hvs : v ≠ sid := fun heq => h2.2 (heq.symm.trans hv)
        dsimp only
        rw [if_neg hvs]
        exact hv

theorem NetFix_change_default (net net' : ENet) (nd : StatusId)
    (hnd : nd ≠ net.data.schema.accepted)
    (h : NetFix net) (hsucc : change_default net nd = (net', none)) : NetFix net' := by
  unfold change_default at hsucc
  by_cases h1 : ¬ (net.data.schema.status.any (fun p => decide (p.1 = nd)) = true)
  · rw [if_pos h1] at hsucc
    exact absurd (congrArg Prod.snd hsucc) (by simp)
  · rw [if_neg h1] at hsucc
    have hE := congrArg Prod.fst hsucc
    dsimp only at hE
    subst hE
    refine ⟨hnd, h.2.1, h.2.2.1, h.2.2.2.1, fun t => ?_⟩
    refine consAt_mapValues net _
      (fun v => if v = net.data.schema.default then nd else v) t rfl rfl rfl ?_
      (h.2.2.2.2 t)
    intro v
    constructor
    · intro hv
      dsimp only at hv
      by_cases hvd : v = net.data.schema.default
      · rw [if_pos hvd] at hv
        exact absurd hv hnd
      · rw [if_neg hvd] at hv
        exact hv
    · intro hv
      have hvd : v ≠ net.data.schema.default := fun heq => h.1 (heq.symm.trans hv)
      dsimp only
      rw [if_neg hvd]
      exact hv

theorem NetFix_add_task (net net' : ENet) (tid : TaskId)
    (h : NetFix net) (hsucc : add_task net tid = (net', none)) : NetFix net' := by
  unfold add_task at hsucc
  by_cases h1 : (mlookup net.data.tasks tid).isSome = true
  · rw [if_pos h1] at hsucc
    exact absurd (congrArg Prod.snd hsucc) (by simp)
  · rw [if_neg h1] at hsucc
    have hE := congrArg Prod.fst hsucc
    dsimp only at hE
    subst hE
    have hnone : mlookup net.data.tasks tid = none := by
      cases hx : mlookup net.data.tasks tid with
      | none => rfl
      | some v =>
        rw [hx] at h1
        exact absurd rfl h1
    have hself : mlookup (net.data.tasks ++ [(tid, net.data.schema.default)]) tid =
        some net.data.schema.default :=
      mlookup_append_single_self net.data.tasks tid net.data.schema.default
        (by rw [hnone]; simp)
    refine ⟨h.1, wf_addNode _ tid h.2.1,
      noCycle_anti _ _ (edgeRel_addNode _ tid) h.2.2.1,
      addNode_nodup _ tid h.2.2.2.1, fun t => ?_⟩
    by_cases ht : t = tid
    · subst ht
      constructor
      · intro s hs
        have hs' : s = net.data.schema.default := by
          have hs2 : mlookup (net.data.tasks ++ [(t, net.data.schema.default)]) t =
              some s := hs
          rw [hself] at hs2
          exact (Option.some_inj.mp hs2).symm
        constructor
        · intro hb heq
          exact h.1 (hs' ▸ heq)
        · intro hc ha
          exfalso
          obtain ⟨e, he, hcomp⟩ := hc
          have he' : e ∈ inEdges net.data.relations t := by
            have he2 : e ∈ inEdges (addNode net.data.relations t) t := he
            rw [inEdges_addNode] at he2
            exact he2
          have hreq := (h.2.2.2.2 t).2 hnone e he'
          rw [hreq.1] at hcomp
          exact RelationType.noConfusion hcomp
      · intro hnone'
        exfalso
        have hn2 : mlookup (net.data.tasks ++ [(t, net.data.schema.default)]) t =
            none := hnone'
        rw [hself] at hn2
        exact Option.noConfusion hn2
    · refine consAt_accpres net _ t ?_ ?_ ?_ ?_ (h.2.2.2.2 t)
      · rfl
      · exact inEdges_addNode _ tid t
      · exact mlookup_append_single_ne _ tid t _ ht
      · intro e he
        show mlookup (net.data.tasks ++ [(tid, net.data.schema.default)]) e.1 =
            some net.data.schema.accepted ↔
          mlookup net.data.tasks e.1 = some net.data.schema.accepted
        by_cases hes : e.1 = tid
        · rw [hes, hself, hnone]
          constructor
          · intro hv
            exact absurd (Option.some_inj.mp hv) h.1
          · intro hv
            exact Option.noConfusion hv
        · rw [mlookup_append_single_ne net.data.tasks tid e.1 _ hes]

theorem NetFix_change_task_status (net net' : ENet) (tid : TaskId) (sid : StatusId)
    (h : NetFix net) (hsucc : change_task_status net tid sid = (net', none)) :
    NetFix net' := by
  unfold change_task_status at hsucc
  cases hic : is_controlled_task_accepted net tid with
  | error e =>
    rw [hic] at hsucc
    exact absurd (congrArg Prod.snd hsucc) (by simp)
  | ok o =>
    rw [hic] at hsucc
    cases o with
    | some b =>
      exact absurd (congrArg Prod.snd hsucc) (by simp)
    | none =>
      dsimp only at hsucc
      cases hlk : mlookup net.data.tasks tid with
      | none =>
        rw [hlk] at hsucc
        exact absurd (congrArg Prod.snd hsucc) (by simp)
      | some st =>
        rw [hlk] at hsucc
        dsimp only at hsucc
        have hp1 : (propagate (updStatus net tid sid)
            (fun l => (l.dropWhile (fun x => decide (x ≠ tid))).drop 1)).1 = net' :=
          congrArg Prod.fst hsucc
        have hp2 : (propagate (updStatus net tid sid)
            (fun l => (l.dropWhile (fun x => decide (x ≠ tid))).drop 1)).2 = none :=
          congrArg Prod.snd hsucc
        rw [← hp1]
        refine propagate_preserves (updStatus net tid sid) _ h.1 h.2.1 h.2.2.1
          h.2.2.2.1 ?_ hp2
        intro l htopo
        have htopo' : topoSort net.data.relations = some l := htopo
        by_cases htl : tid ∈ l
        · obtain ⟨P0, rest, hleq, hne, hdrop⟩ := dropWhile_decomp l tid htl
          have hfl : (l.dropWhile (fun x => decide (x ≠ tid))).drop 1 = rest := by
            rw [hdrop]
            rfl
          refine ⟨P0 ++ [tid], ?_, ?_⟩
          · dsimp only
            rw [hfl, List.append_assoc]
            exact hleq
          · intro x hx
            rcases List.mem_append.mp hx with hxP | hxt
            · have hxne : x ≠ tid := hne x hxP
              refine consAt_accpres net (updStatus net tid sid) x rfl rfl
                (mlookup_minsert_ne _ tid x sid hxne) ?_ (h.2.2.2.2 x)
              intro e he
              by_cases hes : e.1 = tid
              · exfalso
                have hmem : e ∈ net.data.relations.edges := (List.mem_filter.mp he).1
                have htgt : e.2.1 = x := by simpa using (List.mem_filter.mp he).2
                have hpw := topoSort_pairwise _ l htopo'
                rw [hleq] at hpw
                have hcross := (List.pairwise_append.mp hpw).2.2 x hxP tid
                  (List.mem_cons_self _ _)
                refine hcross e.2.2 ?_
                obtain ⟨a, bb, ty⟩ := e
                dsimp only at hes htgt
                rw [hes, htgt] at hmem
                exact hmem
              · show mlookup (minsert net.data.tasks tid sid) e.1 =
                    some net.data.schema.accepted ↔
                  mlookup net.data.tasks e.1 = some net.data.schema.accepted
                rw [mlookup_minsert_ne _ tid e.1 sid hes]
            · have hx' : x = tid := List.mem_singleton.mp hxt
              subst hx'
              constructor
              · intro s hs
                constructor
                · intro hb heq
                  obtain ⟨e, he, hne2⟩ := hb
                  have he' : e ∈ inEdges net.data.relations x := he
                  have hstrong := ictaGo_none_strong net
                    (inEdges net.data.relations x) false hic
                  have haccp := (hstrong.2 e he').1
                  have hmem : e ∈ net.data.relations.edges :=
                    (List.mem_filter.mp he').1
                  have htgt : e.2.1 = x := by simpa using (List.mem_filter.mp he').2
                  have hesne : e.1 ≠ x := by
                    intro heq1
                    refine noSelf_of_noCycle _ h.2.2.1 x e.2.2 ?_
                    obtain ⟨a, bb, ty⟩ := e
                    dsimp only at heq1 htgt
                    rw [heq1, htgt] at hmem
                    exact hmem
                  apply hne2
                  show mlookup (minsert net.data.tasks x sid) e.1 =
                    some net.data.schema.accepted
                  rw [mlookup_minsert_ne _ x e.1 sid hesne]
                  exact haccp
                · intro hc ha
                  exfalso
                  obtain ⟨e, he, hcomp⟩ := hc
                  have he' : e ∈ inEdges net.data.relations x := he
                  have hstrong := ictaGo_none_strong net
                    (inEdges net.data.relations x) false hic
                  exact (hstrong.2 e he').2 hcomp
              · intro hnone'
                exfalso
                have hn2 : mlookup (minsert net.data.tasks x sid) x = none := hnone'
                rw [mlookup_minsert_self] at hn2
                exact Option.noConfusion hn2
        · have hfl : (l.dropWhile (fun x => decide (x ≠ tid))).drop 1 = [] := by
            rw [dropWhile_nil_of_not_mem l tid htl]
            rfl
          refine ⟨l, ?_, ?_⟩
          · dsimp only
            rw [hfl, List.append_nil]
          · intro x hx
            have hxne : x ≠ tid := fun heq => htl (heq ▸ hx)
            have htidn : tid ∉ net.data.relations.nodes := fun hn =>
              htl ((topoSort_perm _ l htopo').mem_iff.mpr hn)
            refine consAt_accpres net (updStatus net tid sid) x rfl rfl
              (mlookup_minsert_ne _ tid x sid hxne) ?_ (h.2.2.2.2 x)
            intro e he
            have hmem : e ∈ net.data.relations.edges := (List.mem_filter.mp he).1
            have hes : e.1 ≠ tid := fun heq => htidn (heq ▸ (h.2.1 e hmem).1)
            show mlookup (minsert net.data.tasks tid sid) e.1 =
                some net.data.schema.accepted ↔
              mlookup net.data.tasks e.1 = some net.data.schema.accepted
            rw [mlookup_minsert_ne _ tid e.1 sid hes]

theorem NetFix_new_relation (net net' : ENet) (a b : TaskId) (ty : RelationType)
    (h : NetFix net) (hsucc : new_relation net a b ty = (net', none)) : NetFix net' := by
  unfold new_relation at hsucc
  by_cases hg : hasPathConnecting net.data.relations b a = true
  · rw [if_pos hg] at hsucc
    exact absurd (congrArg Prod.snd hsucc) (by simp)
  · rw [if_neg hg] at hsucc
    have hnr : ¬ Reach net.data.relations b a := fun hr => hg (reach_hasPath _ b a hr)
    have hp1 : (propagate
        { net with data := { net.data with
            relations := addEdge net.data.relations a b ty } }
        (fun l => l.dropWhile (fun x => decide (x ≠ b)))).1 = net' :=
      congrArg Prod.fst hsucc
    have hp2 : (propagate
        { net with data := { net.data with
            relations := addEdge net.data.relations a b ty } }
        (fun l => l.dropWhile (fun x => decide (x ≠ b)))).2 = none :=
      congrArg Prod.snd hsucc
    rw [← hp1]
    refine propagate_preserves _ _ h.1 (wf_addEdge _ a b ty h.2.1)
      (noCycle_addEdge _ a b ty h.2.2.1 hnr) (addEdge_nodup _ a b ty h.2.2.2.1)
      ?_ hp2
    intro l htopo
    have htopo' : topoSort (addEdge net.data.relations a b ty) = some l := htopo
    have hbl : b ∈ l := by
      refine (topoSort_perm _ l htopo').mem_iff.mpr ?_
      rw [addEdge_nodes]
      exact mem_addNode_self _ b
    obtain ⟨P0, rest, hleq, hne, hdrop⟩ := dropWhile_decomp l b hbl
    refine ⟨P0, ?_, ?_⟩
    · dsimp only
      rw [hdrop]
      exact hleq
    · intro x hx
      have hxne : x ≠ b := hne x hx
      refine consAt_accpres net _ x rfl ?_ rfl (fun e he => Iff.rfl) (h.2.2.2.2 x)
      exact inEdges_addEdge_ne net.data.relations a b ty x hxne

theorem NetFix_remove_relation (net net' : ENet) (a b : TaskId)
    (h : NetFix net) (hsucc : remove_relation net a b = (net', none)) : NetFix net' := by
  unfold remove_relation at hsucc
  have hp1 : (propagate
      { net with data := { net.data with
          relations := removeEdge net.data.relations a b } }
      (fun l => l.dropWhile (fun x => decide (x ≠ b)))).1 = net' :=
    congrArg Prod.fst hsucc
  have hp2 : (propagate
      { net with data := { net.data with
          relations := removeEdge net.data.relations a b } }
      (fun l => l.dropWhile (fun x => decide (x ≠ b)))).2 = none :=
    congrArg Prod.snd hsucc
  rw [← hp1]
  refine propagate_preserves _ _ h.1 (wf_removeEdge _ a b h.2.1)
    (noCycle_anti _ _ (edgeRel_removeEdge _ a b) h.2.2.1) h.2.2.2.1 ?_ hp2
  intro l htopo
  by_cases hbl : b ∈ l
  · obtain ⟨P0, rest, hleq, hne, hdrop⟩ := dropWhile_decomp l b hbl
    refine ⟨P0, ?_, ?_⟩
    · dsimp only
      rw [hdrop]
      exact hleq
    · intro x hx
      have hxne : x ≠ b := hne x hx
      refine consAt_accpres net _ x rfl ?_ rfl (fun e he => Iff.rfl) (h.2.2.2.2 x)
      exact inEdges_removeEdge_ne net.data.relations a b x hxne
  · refine ⟨l, ?_, ?_⟩
    · dsimp only
      rw [dropWhile_nil_of_not_mem l b hbl, List.append_nil]
    · intro x hx
      have hxne : x ≠ b := fun heq => hbl (heq ▸ hx)
      refine consAt_accpres net _ x rfl ?_ rfl (fun e he => Iff.rfl) (h.2.2.2.2 x)
      exact inEdges_removeEdge_ne net.data.relations a b x hxne

theorem NetFix_remove_task (net net' : ENet) (tid : TaskId)
    (h : NetFix net) (hsucc : remove_task net tid = (net', none)) : NetFix net' := by
  unfold remove_task at hsucc
  have hp1 : (propagate
      { net with data := { net.data with
          tasks := mremove net.data.tasks tid,
          relations := removeNode net.data.relations tid } } id).1 = net' :=
    congrArg Prod.fst hsucc
  have hp2 : (propagate
      { net with data := { net.data with
          tasks := mremove net.data.tasks tid,
          relations := removeNode net.data.relations tid } } id).2 = none :=
    congrArg Prod.snd hsucc
  rw [← hp1]
  refine propagate_preserves _ _ h.1 (wf_removeNode _ tid h.2.1)
    (noCycle_anti _ _ (edgeRel_removeNode _ tid) h.2.2.1)
    (removeNode_nodup _ tid h.2.2.2.1) ?_ hp2
  intro l htopo
  exact ⟨[], rfl, fun t ht => absurd ht (List.not_mem_nil t)⟩

theorem NetFix_step (net net' : ENet) (c : Cmd) (h : NetFix net)
    (hgd : ∀ sid, c = Cmd.change_default sid → sid ≠ net.data.schema.accepted)
    (hsucc : applyCmd c net = (net', none)) : NetFix net' := by
  cases c with
  | new_status sid nm => exact NetFix_new_status net net' sid nm h hsucc
  | remove_status sid => exact NetFix_remove_status net net' sid h hsucc
  | change_status_name sid nm =>
    exact NetFix_change_status_name net net' sid nm h hsucc
  | change_default sid => exact NetFix_change_default net net' sid (hgd sid rfl) h hsucc
  | add_task tid => exact NetFix_add_task net net' tid h hsucc
  | remove_task tid => exact NetFix_remove_task net net' tid h hsucc
  | new_relation a b ty => exact NetFix_new_relation net net' a b ty h hsucc
  | remove_relation a b => exact NetFix_remove_relation net net' a b h hsucc
  | change_task_status tid sid =>
    exact NetFix_change_task_status net net' tid sid h hsucc

theorem NetFix_boot (net : ENet) (hb : Bootstrap net) : NetFix net := by
  refine ⟨hb.2.2.1, ?_, ?_, ?_, fun t => ?_⟩
  · intro e he
    rw [hb.1] at he
    exact absurd he (List.not_mem_nil e)
  · intro x y hxy hr
    obtain ⟨ty, hty⟩ := hxy
    rw [hb.1] at hty
    exact absurd hty (List.not_mem_nil _)
  · rw [hb.1]
    exact List.nodup_nil
  · refine consAt_of_no_in net t ?_
    rw [hb.1]
    rfl

theorem reachableND_NetFix (net : ENet) (h : ReachableND net) : NetFix net := by
  induction h with
  | boot n hb => exact NetFix_boot n hb
  | step n n' c hr hs hgd ih => exact NetFix_step n n' c ih hgd hs

/-- C2 (amended): the claimed equivalence between "stored accepted" and
"has a Compose in-edge with every in-edge source stored accepted" holds in
reachable states only as the two one-sided implications that propagation
actually enforces, and only along histories in which `change_default` never
moves the default status onto the accepted status: for every task with a
stored status in such a state, if some in-edge source is not stored
accepted then the task is not stored accepted, and if it has a Compose
in-edge and every in-edge source is stored accepted then it is stored
accepted.  The unrestricted biconditional of the claim is refuted by
`c2_counterexample_accepted_without_compose`. -/
theorem c2_reachable_fixpoint (net : ENet) (h : ReachableND net) (t : TaskId)
    (s : StatusId) (hs : mlookup net.data.tasks t = some s)
    (_hin : inEdges net.data.relations t ≠ []) :
    (blockedIn net t → s ≠ net.data.schema.accepted) ∧
    (hasComposeIn net t → allParentsAccepted net t → s = net.data.schema.accepted) :=
  ((reachableND_NetFix net h).2.2.2.2 t).1 s hs

/-- Witness for C2: in the C8 end state (reached without ever changing the
default status), task `11` has an in-edge, stores status `1`, and the two
amended implications hold there. -/
theorem c2_witness :
    mlookup c8s4.data.tasks 11 = some 1 ∧
    inEdges c8s4.data.relations 11 ≠ [] ∧
    ((blockedIn c8s4 11 → (1 : StatusId) ≠ c8s4.data.schema.accepted) ∧
     (hasComposeIn c8s4 11 → allParentsAccepted c8s4 11 →
       (1 : StatusId) = c8s4.data.schema.accepted)) := by
  have h0 : ReachableND bootNet := ReachableND.boot bootNet (by
    refine ⟨rfl, rfl, by decide, ?_, ?_⟩
    · exact ⟨(0, "d"), by decide, rfl⟩
    · exact ⟨(1, "a"), by decide, rfl⟩)
  have h1 : ReachableND c8s1 := ReachableND.step _ _ (Cmd.add_task 10) h0 (by decide)
    (fun sid hc => Cmd.noConfusion hc)
  have h2 : ReachableND c8s2 := ReachableND.step _ _ (Cmd.add_task 11) h1 (by decide)
    (fun sid hc => Cmd.noConfusion hc)
  have h3 : ReachableND c8s3 :=
    ReachableND.step _ _ (Cmd.new_relation 10 11 RelationType.Compose) h2 (by decide)
      (fun sid hc => Cmd.noConfusion hc)
  have h4 : ReachableND c8s4 :=
    ReachableND.step _ _ (Cmd.change_task_status 10 1) h3 (by decide)
      (fun sid hc => Cmd.noConfusion hc)
  exact ⟨by decide, by decide,
    c2_reachable_fixpoint c8s4 h4 11 1 (by decide) (by decide)⟩
